import Mathlib

/-!
# Skill-Hub reconciliation core: a shallow embedding

This file embeds the marker-block protocol of `internal/adapter/cursor.go`,
the diff check and simple renderer of `internal/cli/remove.go`, the
version-bump step of the feedback command, and the atomic-write step
sequence, and proves/refutes the specification's claims about them.

Files are modeled as `List Char`.  Go's `regexp` package uses leftmost-first
(Perl-like) matching; the two patterns used by the source,

  `(?s)# === SKILL-HUB BEGIN: (?P<id>.*?) ===\n(?P<content>.*?)\n# === SKILL-HUB END: (?P<id2>.*?) ===`

and the per-skill literal pattern

  `(?s)# === SKILL-HUB BEGIN: <id> ===\n.*?\n# === SKILL-HUB END: <id> ===`   (plus `\n?` for Remove)

consist of literal separators joined by lazy `.*?` gaps, so a match at a
given position takes, for each gap in order, the shortest text reaching the
next literal (backtracking to longer text only if the remainder cannot
match), and the overall match is the one starting leftmost.  The matchers
below (`lazyMatch`, `findFirst`, `findSpecM`) implement exactly those
semantics.  Recursive functions whose recursion is not structural take a
fuel argument (with fuel-adequacy lemmas proved below) so that every
definition evaluates by kernel reduction.
-/

/-- Go `unicode.IsSpace` (the White_Space property), as used by
`strings.TrimSpace` in the source. -/
def goIsSpace (c : Char) : Bool :=
  (9 ≤ c.val && c.val ≤ 13) || c.val == 32 || c.val == 0x85 || c.val == 0xA0 ||
  c.val == 0x1680 || (0x2000 ≤ c.val && c.val ≤ 0x200A) || c.val == 0x2028 ||
  c.val == 0x2029 || c.val == 0x202F || c.val == 0x205F || c.val == 0x3000

/-- Go `strings.TrimSpace`: drop leading and trailing whitespace. -/
def trimSpace (s : List Char) : List Char :=
  ((s.dropWhile goIsSpace).reverse.dropWhile goIsSpace).reverse

/-- The common header of both marker delimiter lines. -/
def hdrChars : List Char := "# === SKILL-HUB".data

/-- The literal before the opening identifier. -/
def beginChars : List Char := "# === SKILL-HUB BEGIN: ".data

/-- The literal before the closing identifier. -/
def endChars : List Char := "# === SKILL-HUB END: ".data

/-- The literal after each identifier. -/
def eqsChars : List Char := " ===".data

def nlChar : Char := '\n'

/-- Separator after the `id` capture of `markerPattern`: `" ===\n"`. -/
def sep1 : List Char := eqsChars ++ [nlChar]

/-- Separator after the `content` capture: `"\n# === SKILL-HUB END: "`. -/
def sep2 : List Char := nlChar :: endChars

/-- Separator after the `id2` capture: `" ==="`. -/
def sep3 : List Char := eqsChars

/-- Scan `t` left to right for the first position where the literal `s`
matches and the continuation `k` succeeds on the remainder; returns the
skipped prefix and the continuation's answer.  This is the semantics of a
lazy gap `.*?` followed by the literal `s` followed by the rest of the
pattern (`k`), including backtracking to a later occurrence of `s` when the
rest of the pattern fails. -/
def scanFirst {α : Type} (s : List Char) (k : List Char → Option α) :
    List Char → Option (List Char × α)
  | [] =>
    match (if s.isPrefixOf ([] : List Char) then k (([] : List Char).drop s.length) else none) with
    | some a => some ([], a)
    | none => none
  | c :: t =>
    match (if s.isPrefixOf (c :: t) then k ((c :: t).drop s.length) else none) with
    | some a => some ([], a)
    | none =>
      match scanFirst s k t with
      | some p => some (c :: p.1, p.2)
      | none => none

/-- Lazy matching of alternating gaps and literal separators: given
separators `s₁, …, sₙ`, split `t` as `c₁ ++ s₁ ++ c₂ ++ s₂ ++ … ++ cₙ ++ sₙ ++ r`
with the leftmost-first (all-gaps-lazy) choice of captures, returning
`([c₁, …, cₙ], r)`. -/
def lazyMatch : List (List Char) → List Char → Option (List (List Char) × List Char)
  | [], t => some ([], t)
  | s :: ss, t =>
    match scanFirst s (lazyMatch ss) t with
    | some (c, (cs, r)) => some (c :: cs, r)
    | none => none

/-- One submatch of `markerPattern`: the three captures. -/
structure MMatch where
  id : List Char
  content : List Char
  id2 : List Char
deriving DecidableEq, Repr

/-- Anchored match of `markerPattern` at the start of `t`: the literal
`"# === SKILL-HUB BEGIN: "` followed by the three lazy captures and their
separators.  Returns the captures and the text after the match. -/
def matchAt (t : List Char) : Option (MMatch × List Char) :=
  if beginChars.isPrefixOf t then
    match lazyMatch [sep1, sep2, sep3] (t.drop beginChars.length) with
    | some ([i, c, j], r) => some (⟨i, c, j⟩, r)
    | _ => none
  else none

/-- Leftmost match of `markerPattern` in `t` (Go `FindStringSubmatch`). -/
def findFirst : List Char → Option (MMatch × List Char)
  | [] => none
  | c :: t =>
    match matchAt (c :: t) with
    | some r => some r
    | none => findFirst t

/-- Fueled worker for `findAll`. -/
def findAllAux : Nat → List Char → List MMatch
  | 0, _ => []
  | f + 1, t =>
    match findFirst t with
    | none => []
    | some (m, r) => m :: findAllAux f r

/-- All non-overlapping matches of `markerPattern`, leftmost first
(Go `FindAllStringSubmatch(content, -1)`). -/
def findAll (t : List Char) : List MMatch := findAllAux t.length t

/-- Split `s` at the first occurrence of the literal `sep`
(lazy `.*?` followed by `sep` at the end of a pattern). -/
def splitFirst (sep : List Char) : List Char → Option (List Char × List Char)
  | [] => if sep.isPrefixOf ([] : List Char) then some ([], []) else none
  | c :: t =>
    if sep.isPrefixOf (c :: t) then some ([], (c :: t).drop sep.length)
    else
      match splitFirst sep t with
      | some p => some (c :: p.1, p.2)
      | none => none

/-- Opening delimiter line for a given skill id (with its newline):
`"# === SKILL-HUB BEGIN: <id> ===\n"`. -/
def markerBegin (skillID : List Char) : List Char :=
  beginChars ++ skillID ++ eqsChars ++ [nlChar]

/-- Closing delimiter preceded by its newline:
`"\n# === SKILL-HUB END: <id> ==="`. -/
def markerEnd (skillID : List Char) : List Char :=
  nlChar :: (endChars ++ skillID ++ eqsChars)

/-- Leftmost match of the per-skill literal pattern
`# === SKILL-HUB BEGIN: <id> ===\n.*?\n# === SKILL-HUB END: <id> ===`
(ids quoted literally via `regexp.QuoteMeta`).  Returns
`(text before the match, the matched text, text after the match)`. -/
def findSpecM (skillID : List Char) : List Char → Option (List Char × List Char × List Char)
  | [] => none
  | c :: t =>
    match (if (markerBegin skillID).isPrefixOf (c :: t) then
             match splitFirst (markerEnd skillID) ((c :: t).drop (markerBegin skillID).length) with
             | some p =>
               some (([] : List Char), markerBegin skillID ++ p.1 ++ markerEnd skillID, p.2)
             | none => none
           else none) with
    | some res => some res
    | none =>
      match findSpecM skillID t with
      | some p => some (c :: p.1, p.2.1, p.2.2)
      | none => none

/-- ASCII model of Go's capture-name runes (letters, digits, underscore) in
`regexp` replacement templates. -/
def isWordChar (c : Char) : Bool := c.isAlpha || c.isDigit || c == '_'

/-- Fueled worker for `expandRepl`. -/
def expandReplAux (whole : List Char) : Nat → List Char → List Char
  | 0, t => t
  | _ + 1, [] => []
  | f + 1, c :: rest =>
    if c = '$' then
      match rest with
      | '$' :: rest1 => '$' :: expandReplAux whole f rest1
      | '\x7b' :: rest1 =>
        let name := rest1.takeWhile isWordChar
        if name = [] then '$' :: expandReplAux whole f rest
        else
          match rest1.drop name.length with
          | '\x7d' :: rest2 =>
            (if name = ['0'] then whole else []) ++ expandReplAux whole f rest2
          | _ => '$' :: expandReplAux whole f rest
      | _ =>
        let name := rest.takeWhile isWordChar
        if name = [] then '$' :: expandReplAux whole f rest
        else (if name = ['0'] then whole else []) ++ expandReplAux whole f (rest.drop name.length)
    else c :: expandReplAux whole f rest

/-- Go `Regexp.ReplaceAllString` expansion of `$` references in the
replacement text (`Regexp.expand`): `$$` is a literal `$`; `$name`/`${name}`
with a capture-group name expands to that group.  The per-skill patterns of
the source have no capture groups, so group `0` is the whole match and every
other reference expands to the empty string; a malformed `$` is kept
literally. -/
def expandRepl (whole tmpl : List Char) : List Char := expandReplAux whole tmpl.length tmpl

/-- Fueled worker for `replAll`. -/
def replAllAux (skillID mb : List Char) : Nat → List Char → List Char
  | 0, s => s
  | f + 1, s =>
    match findSpecM skillID s with
    | none => s
    | some (pre, whole, rest) => pre ++ expandRepl whole mb ++ replAllAux skillID mb f rest

/-- `pattern.ReplaceAllString(existingContent, markerBlock)` for the
per-skill pattern: replace every non-overlapping leftmost match by the
`$`-expanded replacement text. -/
def replAll (skillID mb s : List Char) : List Char := replAllAux skillID mb s.length s

/-- The trailing `\n?` of the Remove pattern: greedily take one newline. -/
def dropNl : List Char → List Char
  | c :: rest => if c = nlChar then rest else c :: rest
  | [] => []

/-- Fueled worker for `removeAll`. -/
def removeAllAux (skillID : List Char) : Nat → List Char → List Char
  | 0, s => s
  | f + 1, s =>
    match findSpecM skillID s with
    | none => s
    | some (pre, _, rest) => pre ++ removeAllAux skillID f (dropNl rest)

/-- `pattern.ReplaceAllString(content, "")` for the Remove pattern
(the per-skill pattern followed by `\n?`). -/
def removeAll (skillID s : List Char) : List Char := removeAllAux skillID s.length s

/-- `CursorAdapter.createMarkerBlock`:
`"# === SKILL-HUB BEGIN: %s ===\n%s\n# === SKILL-HUB END: %s ===\n"`. -/
def createMarkerBlock (skillID content : List Char) : List Char :=
  beginChars ++ skillID ++ eqsChars ++ [nlChar] ++ content ++ [nlChar] ++
    endChars ++ skillID ++ eqsChars ++ [nlChar]

/-- `CursorAdapter.replaceOrAddMarker`: replace an existing block for the id
in place, otherwise append the block to the trimmed file, separated by one
blank line unless the trimmed file is empty. -/
def replaceOrAddMarker (existingContent skillID markerBlock : List Char) : List Char :=
  if (findSpecM skillID existingContent).isSome then
    replAll skillID markerBlock existingContent
  else
    let e := trimSpace existingContent
    if e = [] then markerBlock else e ++ [nlChar, nlChar] ++ markerBlock

/-- `CursorAdapter.Apply`, taken after its template-rendering step (the
`renderTemplate` call is Go `text/template`, which is the identity on
content containing no template action): wrap the rendered content in a
marker block and replace-or-append it.  The file content is the value
written by `writeFile`; a missing file reads as the empty content
(`os.IsNotExist` is tolerated by `Apply`). -/
def Apply (file skillID rendered : List Char) : List Char :=
  replaceOrAddMarker file skillID (createMarkerBlock skillID rendered)

/-- The loop of `CursorAdapter.Extract` over the matches of
`markerPattern`: the first match whose opening and closing ids both equal
the requested id yields its content, trimmed. -/
def extractLoop (skillID : List Char) : List MMatch → Option (List Char)
  | [] => none
  | m :: ms =>
    if m.id = skillID ∧ m.id2 = skillID then some (trimSpace m.content)
    else extractLoop skillID ms

/-- `CursorAdapter.Extract` on the file's content; `none` models the
"marker block not found" error. -/
def Extract (file skillID : List Char) : Option (List Char) :=
  extractLoop skillID (findAll file)

/-- `CursorAdapter.List` (named `ListSkills` here because `List` is taken):
the opening ids of all matches whose opening and closing ids agree, in
document order. -/
def ListSkills (file : List Char) : List (List Char) :=
  ((findAll file).filter (fun m => m.id == m.id2)).map (fun m => m.id)

/-- The content-level part of `CursorAdapter.Remove`: delete every match of
the Remove pattern, trim the remainder; `none` means the file is deleted
(`os.Remove`) because nothing but whitespace is left. -/
def RemoveContent (file skillID : List Char) : Option (List Char) :=
  let newContent := trimSpace (removeAll skillID file)
  if newContent = [] then none else some newContent

/-- `CursorAdapter.Remove` at the file-system level: a missing file
(`os.IsNotExist`) is success with nothing to do; otherwise the content-level
removal decides between rewriting (`some`) and deleting (`none`) the file.
Only I/O failures (outside this model) can produce the error branch. -/
def RemoveOp (fs : Option (List Char)) (skillID : List Char) :
    Except String (Option (List Char)) :=
  match fs with
  | none => Except.ok none
  | some content => Except.ok (RemoveContent content skillID)

/-- Fueled worker for `replaceAllStr`. -/
def replaceAllStrAux (pat rep : List Char) : Nat → List Char → List Char
  | 0, s => s
  | f + 1, s =>
    match splitFirst pat s with
    | none => s
    | some (pre, rest) => pre ++ rep ++ replaceAllStrAux pat rep f rest

/-- Go `strings.ReplaceAll(s, pat, rep)` for a non-empty literal `pat`
(the placeholders built by the source are never empty; the guard keeps the
definition total). -/
def replaceAllStr (pat rep s : List Char) : List Char :=
  if pat = [] then s else replaceAllStrAux pat rep s.length s

/-- The placeholder text `"{{.<key>}}"` built by `renderTemplateForRemove`
(braces written as escapes). -/
def placeholder (key : List Char) : List Char :=
  ('\x7b' :: '\x7b' :: '.' :: []) ++ key ++ ['\x7d', '\x7d']

/-- The replacement loop of `renderTemplateForRemove` in
`internal/cli/remove.go`: for each mapping entry, replace every occurrence
of its placeholder by its value.  Go iterates the map in unspecified order;
the binding list fixes one order. -/
def renderCore (content : List Char) (vars : List (List Char × List Char)) : List Char :=
  vars.foldl (fun result kv => replaceAllStr (placeholder kv.1) kv.2 result) content

/-- `renderTemplateForRemove`: the source always returns a nil error. -/
def renderTemplateForRemove (content : List Char) (vars : List (List Char × List Char)) :
    Except String (List Char) :=
  Except.ok (renderCore content vars)

/-- What `checkSkillModifications` sees of one adapter: its `Supports()`
answer and the result of `Extract` (`none` models an extraction error). -/
structure AdapterView where
  supports : Bool
  extractResult : Option (List Char)

/-- SHA-256 digest comparison, modeled as equality of the hashed texts
(SHA-256 is collision-free on the texts compared here, so
`sha256.Sum256(a) == sha256.Sum256(b)` decides `a == b`). -/
def hashEq (a b : List Char) : Bool := a == b

/-- The per-adapter body of the `checkSkillModifications` loop: an adapter
flags a modification when it is supported, extraction succeeded with
non-empty content, and the hash of the trimmed content differs from the
hash of the trimmed rendered original. -/
def viewModified (rendered : List Char) (v : AdapterView) : Bool :=
  v.supports &&
    (match v.extractResult with
     | none => false
     | some c => if c = [] then false else !(hashEq (trimSpace c) (trimSpace rendered)))

/-- `checkSkillModifications` in `internal/cli/remove.go`: render the
original prompt once with the project variables, then accumulate the
per-adapter modification flags over all adapters. -/
def checkSkillModifications (views : List AdapterView) (originalPrompt : List Char)
    (vars : List (List Char × List Char)) : Bool :=
  let rendered := renderCore originalPrompt vars
  views.foldl (fun acc v => acc || viewModified rendered v) false

/-- Decimal digit character (`fmt` `%d` output digits). -/
def digitChar (d : Nat) : Char :=
  match d with
  | 0 => '0' | 1 => '1' | 2 => '2' | 3 => '3' | 4 => '4'
  | 5 => '5' | 6 => '6' | 7 => '7' | 8 => '8' | 9 => '9'
  | _ => '?'

/-- Fueled worker for `natToChars`. -/
def natToCharsAux : Nat → Nat → List Char
  | 0, _ => []
  | f + 1, n => if n < 10 then [digitChar n] else natToCharsAux f (n / 10) ++ [digitChar (n % 10)]

/-- Decimal numeral of a natural number, most significant digit first. -/
def natToChars (n : Nat) : List Char := natToCharsAux (n + 1) n

/-- `fmt.Sprintf("%d", i)` for a Go int. -/
def intToChars (i : Int) : List Char :=
  if i < 0 then '-' :: natToChars i.natAbs else natToChars i.toNat

/-- Digit-run accumulator of the `%d` scan: consume leading decimal digits,
ignore the rest. -/
def parseIntDigits : Nat → List Char → Nat
  | acc, [] => acc
  | acc, c :: t => if c.isDigit then parseIntDigits (10 * acc + (c.toNat - 48)) t else acc

/-- `parseInt` in the feedback command: `fmt.Sscanf(s, "%d", &result)` with
the result left at `0` on a scan failure.  `%d` skips leading white space,
accepts an optional sign and a non-empty run of decimal digits, and ignores
trailing text. -/
def parseInt (s : List Char) : Int :=
  match s.dropWhile goIsSpace with
  | [] => 0
  | c :: rest =>
    if c = '-' then
      match rest with
      | [] => 0
      | d :: _ => if d.isDigit then - Int.ofNat (parseIntDigits 0 rest) else 0
    else if c = '+' then
      match rest with
      | [] => 0
      | d :: _ => if d.isDigit then Int.ofNat (parseIntDigits 0 rest) else 0
    else if c.isDigit then Int.ofNat (parseIntDigits 0 (c :: rest)) else 0

/-- Go `strings.Split(s, ".")`. -/
def splitOnDot : List Char → List (List Char)
  | [] => [[]]
  | c :: t =>
    if c = '.' then [] :: splitOnDot t
    else
      match splitOnDot t with
      | [] => [[c]]
      | h :: r => (c :: h) :: r

/-- The version-bump step of `runFeedback`: split the version on dots; with
exactly three components, rebuild it as
`fmt.Sprintf("%s.%s.%d", parts[0], parts[1], parseInt(parts[2])+1)`;
otherwise leave the version unchanged. -/
def bumpVersion (version : List Char) : List Char :=
  let parts := splitOnDot version
  if parts.length = 3 then
    parts.headD [] ++ ['.'] ++ (parts.drop 1).headD [] ++ ['.'] ++
      intToChars (parseInt ((parts.drop 2).headD []) + 1)
  else version

/-- The three paths `writeFile` touches: the target, its `.bak`, its
`.tmp`; `none` means the path does not exist. -/
structure FileState where
  main : Option (List Char)
  bak : Option (List Char)
  tmp : Option (List Char)
deriving DecidableEq, Repr

/-- Step 1 of `CursorAdapter.writeFile`: if the target exists, rename it to
the backup path. -/
def backupStep (fs : FileState) : FileState :=
  match fs.main with
  | some c => { main := none, bak := some c, tmp := fs.tmp }
  | none => fs

/-- Step 2: write the new content to the temporary path. -/
def writeTmpStep (content : List Char) (fs : FileState) : FileState :=
  { fs with tmp := some content }

/-- Step 3: rename the temporary file onto the target. -/
def renameTmpStep (fs : FileState) : FileState :=
  match fs.tmp with
  | some c => { fs with main := some c, tmp := none }
  | none => fs

/-- The file-system states reachable by interrupting
`CursorAdapter.writeFile` after zero, one, two or all three steps. -/
def writeFileStates (fs : FileState) (content : List Char) : List FileState :=
  let s1 := backupStep fs
  let s2 := writeTmpStep content s1
  let s3 := renameTmpStep s2
  [fs, s1, s2, s3]

/-! ## Prefix/infix toolkit -/

/-- Bridge between the executable `isPrefixOf` and the `<+:` relation. -/
theorem isPrefixOfIff {l₁ l₂ : List Char} : l₁.isPrefixOf l₂ = true ↔ l₁ <+: l₂ :=
  List.isPrefixOf_iff_prefix

theorem prefix_of_drop_isInfix {P s : List Char} {k : Nat} (h : P <+: s.drop k) :
    P <:+: s := by
  obtain ⟨t, ht⟩ := h
  exact ⟨s.take k, t, by rw [List.append_assoc, ht, List.take_append_drop]⟩

theorem prefix_confined {P a b : List Char} (h : P <+: a ++ b)
    (hlen : P.length ≤ a.length) : P <+: a := by
  rw [List.prefix_iff_eq_take] at h ⊢
  rwa [List.take_append_eq_append_take, Nat.sub_eq_zero_of_le hlen, List.take_zero,
    List.append_nil] at h

/-- In `x ++ ((c :: P0) ++ y)` the pattern `c :: P0` has no prefix occurrence
starting strictly inside `x`, provided its head character `c` does not recur
in `P0` and the pattern is not an infix of `x`. -/
theorem no_early_occurrence {c : Char} {P0 x y : List Char} (hhu : c ∉ P0)
    (hx : ¬ (c :: P0) <:+: x) :
    ∀ k, k < x.length → ¬ (c :: P0) <+: ((x ++ ((c :: P0) ++ y)).drop k) := by
  intro k hk h
  by_cases hcase : k + (c :: P0).length ≤ x.length
  · apply hx
    have hdropped : (x ++ ((c :: P0) ++ y)).drop k = x.drop k ++ ((c :: P0) ++ y) := by
      rw [List.drop_append_eq_append_drop, Nat.sub_eq_zero_of_le (le_of_lt hk),
        List.drop_zero]
    rw [hdropped] at h
    have hconf : (c :: P0) <+: x.drop k := by
      refine prefix_confined h ?_
      rw [List.length_drop]
      omega
    exact prefix_of_drop_isInfix hconf
  · obtain ⟨t, ht⟩ := h
    have hl : x.length - k < (c :: P0).length := by omega
    have hS : (x ++ ((c :: P0) ++ y))[x.length]? = some c := by
      rw [List.getElem?_append_right (le_refl x.length), Nat.sub_self]
      simp
    have h2 : (c :: P0)[x.length - k]? = some c := by
      have e1 : ((x ++ ((c :: P0) ++ y)).drop k)[x.length - k]? =
          (x ++ ((c :: P0) ++ y))[k + (x.length - k)]? := List.getElem?_drop _ k _
      rw [← ht, List.getElem?_append, if_pos hl,
        show k + (x.length - k) = x.length by omega, hS] at e1
      exact e1
    have hmem : c ∈ P0 := by
      cases hxk : x.length - k with
      | zero => omega
      | succ m =>
        rw [hxk, List.getElem?_cons_succ] at h2
        exact List.getElem?_mem h2
    exact hhu hmem

/-- The tail of the header after its unique `#`. -/
def hdrTail : List Char := " === SKILL-HUB".data

theorem hdrChars_cons : hdrChars = '#' :: hdrTail := by decide

theorem beginChars_split : beginChars = hdrChars ++ " BEGIN: ".data := by decide

theorem endChars_split : endChars = hdrChars ++ " END: ".data := by decide

/-- A well-behaved skill identifier contains no whitespace (the spec's ids
are directory-name tokens). -/
def SpaceFree (i : List Char) : Prop := ∀ ch ∈ i, goIsSpace ch = false

/-- Text that nowhere contains the marker header `"# === SKILL-HUB"`. -/
def HdrFree (s : List Char) : Prop := ¬ hdrChars <:+: s

instance : DecidablePred SpaceFree := fun i => by unfold SpaceFree; infer_instance

instance : DecidablePred HdrFree := fun s => by unfold HdrFree; infer_instance

theorem no_hdr_at {x W : List Char} (hx : HdrFree x) :
    ∀ k, k < x.length → ¬ hdrChars <+: ((x ++ (hdrChars ++ W)).drop k) := by
  have hhu : ('#' : Char) ∉ hdrTail := by decide
  intro k hk h
  rw [hdrChars_cons] at h
  refine no_early_occurrence hhu ?_ k hk h
  rw [← hdrChars_cons]
  exact hx

theorem no_hdr_headed_at {x T R : List Char} (hx : HdrFree x) :
    ∀ k, k < x.length → ¬ (hdrChars ++ T) <+: ((x ++ ((hdrChars ++ T) ++ R)).drop k) := by
  intro k hk h
  have h1 : hdrChars <+: ((x ++ (hdrChars ++ (T ++ R))).drop k) := by
    have h2 := (List.prefix_append hdrChars T).trans h
    rwa [List.append_assoc] at h2
  exact no_hdr_at hx k hk h1

theorem matchAt_none_of_not_begin {t : List Char} (h : ¬ beginChars <+: t) :
    matchAt t = none := by
  rw [matchAt, if_neg]
  intro hb
  exact h (isPrefixOfIff.mp hb)

theorem findFirst_cons (c : Char) (t : List Char) :
    findFirst (c :: t) = match matchAt (c :: t) with
      | some r => some r
      | none => findFirst t := rfl

theorem findFirst_skip {x z : List Char}
    (hx : ∀ k, k < x.length → matchAt ((x ++ z).drop k) = none) :
    findFirst (x ++ z) = findFirst z := by
  induction x with
  | nil => rfl
  | cons a x ih =>
    rw [List.cons_append, findFirst_cons]
    have h0 := hx 0 (by simp)
    rw [List.drop_zero, List.cons_append] at h0
    rw [h0]
    refine ih ?_
    intro k hk
    have hk1 := hx (k + 1) (by simpa using Nat.succ_lt_succ hk)
    rwa [List.cons_append, List.drop_succ_cons] at hk1

theorem findFirst_none {t : List Char} (h : HdrFree t) : findFirst t = none := by
  induction t with
  | nil => rfl
  | cons a t ih =>
    rw [findFirst_cons]
    have hb : ¬ beginChars <+: (a :: t) := by
      intro hp
      apply h
      have : hdrChars <+: (a :: t) := by
        refine List.IsPrefix.trans ?_ hp
        rw [beginChars_split]
        exact List.prefix_append _ _
      exact this.isInfix
    rw [matchAt_none_of_not_begin hb]
    refine ih ?_
    intro hinf
    exact h (hinf.trans (List.suffix_cons a t).isInfix)

theorem scanFirst_cons {α : Type} (s : List Char) (k : List Char → Option α) (c : Char)
    (t : List Char) :
    scanFirst s k (c :: t) =
      match (if s.isPrefixOf (c :: t) then k ((c :: t).drop s.length) else none) with
      | some a => some ([], a)
      | none =>
        match scanFirst s k t with
        | some p => some (c :: p.1, p.2)
        | none => none := rfl

theorem scanFirst_exact {α : Type} {s : List Char} {k : List Char → Option α}
    {x y : List Char} {a : α} (hne : s ≠ [])
    (hearly : ∀ j, j < x.length → ¬ s <+: ((x ++ (s ++ y)).drop j))
    (hk : k y = some a) :
    scanFirst s k (x ++ (s ++ y)) = some (x, a) := by
  induction x with
  | nil =>
    rw [List.nil_append]
    cases s with
    | nil => exact absurd rfl hne
    | cons c s0 =>
      rw [List.cons_append, scanFirst_cons]
      have hpre : (c :: s0).isPrefixOf (c :: (s0 ++ y)) = true := by
        rw [isPrefixOfIff, ← List.cons_append]
        exact List.prefix_append _ _
      rw [if_pos hpre, ← List.cons_append, List.drop_left, hk]
  | cons b x ih =>
    rw [List.cons_append, scanFirst_cons]
    have h0 : ¬ s <+: (b :: (x ++ (s ++ y))) := by
      have h1 := hearly 0 (by simp)
      rwa [List.drop_zero, List.cons_append] at h1
    have hpre : ¬ s.isPrefixOf (b :: (x ++ (s ++ y))) = true := fun hb =>
      h0 (isPrefixOfIff.mp hb)
    rw [if_neg hpre]
    have hrec : scanFirst s k (x ++ (s ++ y)) = some (x, a) := by
      refine ih ?_
      intro j hj
      have h2 := hearly (j + 1) (by simpa using Nat.succ_lt_succ hj)
      rwa [List.cons_append, List.drop_succ_cons] at h2
    rw [hrec]

theorem lazyMatch_exact {s : List Char} {ss : List (List Char)} {x y : List Char}
    {cs : List (List Char)} {r : List Char} (hne : s ≠ [])
    (hearly : ∀ j, j < x.length → ¬ s <+: ((x ++ (s ++ y)).drop j))
    (hrest : lazyMatch ss y = some (cs, r)) :
    lazyMatch (s :: ss) (x ++ (s ++ y)) = some (x :: cs, r) := by
  have h1 : scanFirst s (lazyMatch ss) (x ++ (s ++ y)) = some (x, (cs, r)) :=
    scanFirst_exact hne hearly hrest
  rw [show lazyMatch (s :: ss) (x ++ (s ++ y)) =
        (match scanFirst s (lazyMatch ss) (x ++ (s ++ y)) with
         | some (c, (cs, r)) => some (c :: cs, r)
         | none => none) from rfl, h1]

theorem eqs_not_infix_of_spaceFree {j : List Char} (hj : SpaceFree j) :
    ¬ eqsChars <:+: j := by
  intro h
  exact absurd (hj ' ' (h.subset (by decide))) (by decide)

theorem no_eqs_at {x R : List Char} (hx : ¬ eqsChars <:+: x) :
    ∀ k, k < x.length → ¬ eqsChars <+: ((x ++ (eqsChars ++ R)).drop k) := by
  intro k hk h
  rw [show eqsChars = ' ' :: "===".data from by decide] at h hx
  exact no_early_occurrence (by decide) hx k hk h

theorem sep1_not_infix_of_spaceFree {i : List Char} (hi : SpaceFree i) :
    ¬ sep1 <:+: i := by
  intro h
  exact absurd (hi ' ' (h.subset (by decide))) (by decide)

theorem no_sep1_at {x R : List Char} (hx : ¬ sep1 <:+: x) :
    ∀ k, k < x.length → ¬ sep1 <+: ((x ++ (sep1 ++ R)).drop k) := by
  intro k hk h
  rw [show sep1 = ' ' :: "===\n".data from by decide] at h hx
  exact no_early_occurrence (by decide) hx k hk h

theorem sep2_not_infix_of_hdrFree {c : List Char} (hc : HdrFree c) : ¬ sep2 <:+: c :=
  fun h => hc (List.IsInfix.trans (by decide) h)

theorem no_sep2_at {x R : List Char} (hx : HdrFree x) :
    ∀ k, k < x.length → ¬ sep2 <+: ((x ++ (sep2 ++ R)).drop k) := by
  intro k hk h
  rw [show sep2 = '\n' :: endChars from rfl] at h
  exact no_early_occurrence (by decide)
    (fun hinf => sep2_not_infix_of_hdrFree hx hinf) k hk h

/-- The text footprint of one `markerPattern` match: BEGIN line, content,
and END delimiter, without the trailing newline (which the generic pattern
does not consume). -/
def gcore (i c j : List Char) : List Char :=
  beginChars ++ (i ++ (sep1 ++ (c ++ (sep2 ++ (j ++ sep3)))))

theorem createMarkerBlock_eq_gcore (i c : List Char) :
    createMarkerBlock i c = gcore i c i ++ [nlChar] := by
  simp [createMarkerBlock, gcore, sep1, sep2, sep3, List.append_assoc]

theorem gcore_append (i c j rest : List Char) :
    gcore i c j ++ rest =
      beginChars ++ (i ++ (sep1 ++ (c ++ (sep2 ++ (j ++ (sep3 ++ rest)))))) := by
  simp [gcore, List.append_assoc]

theorem matchAt_block {i c j rest : List Char} (hi : SpaceFree i) (hc : HdrFree c)
    (hj : SpaceFree j) :
    matchAt (gcore i c j ++ rest) = some (⟨i, c, j⟩, rest) := by
  rw [gcore_append, matchAt]
  have hpre : beginChars.isPrefixOf
      (beginChars ++ (i ++ (sep1 ++ (c ++ (sep2 ++ (j ++ (sep3 ++ rest))))))) = true := by
    rw [isPrefixOfIff]
    exact List.prefix_append _ _
  rw [if_pos hpre, List.drop_left]
  have h3 : lazyMatch [sep3] (j ++ (sep3 ++ rest)) = some ([j], rest) :=
    lazyMatch_exact (by decide) (no_eqs_at (eqs_not_infix_of_spaceFree hj)) rfl
  have h2 : lazyMatch [sep2, sep3] (c ++ (sep2 ++ (j ++ (sep3 ++ rest)))) =
      some ([c, j], rest) :=
    lazyMatch_exact (by decide) (no_sep2_at hc) h3
  have h1 : lazyMatch [sep1, sep2, sep3]
      (i ++ (sep1 ++ (c ++ (sep2 ++ (j ++ (sep3 ++ rest)))))) = some ([i, c, j], rest) :=
    lazyMatch_exact (by decide) (no_sep1_at (sep1_not_infix_of_spaceFree hi)) h2
  rw [h1]

theorem scanFirst_nil_eq {α : Type} (s : List Char) (k : List Char → Option α) :
    scanFirst s k [] =
      match (if s.isPrefixOf ([] : List Char) then k (([] : List Char).drop s.length)
             else none) with
      | some a => some ([], a)
      | none => none := rfl

theorem scanFirst_bound {α : Type} {s : List Char} {k : List Char → Option α}
    {m : α → Nat} (hk : ∀ u a, k u = some a → m a ≤ u.length) :
    ∀ t p, scanFirst s k t = some p → m p.2 ≤ t.length := by
  intro t
  induction t with
  | nil =>
    intro p hp
    rw [scanFirst_nil_eq] at hp
    split at hp
    · next a ha =>
      split at ha
      · have hm := hk _ _ ha
        cases hp
        simpa using hm
      · cases ha
    · cases hp
  | cons c t ih =>
    intro p hp
    rw [scanFirst_cons] at hp
    split at hp
    · next a ha =>
      split at ha
      · have hm := hk _ _ ha
        cases hp
        simp only [List.length_drop, List.length_cons] at hm
        simp only [List.length_cons]
        omega
      · cases ha
    · next =>
      split at hp
      · next q hq =>
        have := ih q hq
        cases hp
        simp only [List.length_cons]
        omega
      · cases hp

theorem lazyMatch_rest_le :
    ∀ (ss : List (List Char)) (t : List Char) (cs : List (List Char)) (r : List Char),
      lazyMatch ss t = some (cs, r) → r.length ≤ t.length := by
  intro ss
  induction ss with
  | nil =>
    intro t cs r h
    rw [show lazyMatch [] t = some ([], t) from rfl] at h
    cases h
    exact le_refl _
  | cons s ss ih =>
    intro t cs r h
    rw [show lazyMatch (s :: ss) t =
          (match scanFirst s (lazyMatch ss) t with
           | some (c, (cs, r)) => some (c :: cs, r)
           | none => none) from rfl] at h
    split at h
    · next c cs0 r0 hs =>
      cases h
      have hb := scanFirst_bound (m := fun a => a.2.length)
        (fun u a ha => by exact ih u a.1 a.2 (by simpa using ha)) t _ hs
      exact hb
    · cases h

theorem matchAt_rest_lt {t : List Char} {m : MMatch} {r : List Char}
    (h : matchAt t = some (m, r)) : r.length < t.length := by
  rw [matchAt] at h
  split at h
  · next hb =>
    have hlen : beginChars.length ≤ t.length := (isPrefixOfIff.mp hb).length_le
    split at h
    · next i c j r0 hl =>
      cases h
      have := lazyMatch_rest_le _ _ _ _ hl
      simp only [List.length_drop] at this
      have hb23 : beginChars.length = 23 := by decide
      omega
    · cases h
  · cases h

theorem findFirst_rest_lt :
    ∀ {t : List Char} {m : MMatch} {r : List Char},
      findFirst t = some (m, r) → r.length < t.length := by
  intro t
  induction t with
  | nil => intro m r h; cases h
  | cons c t ih =>
    intro m r h
    rw [findFirst_cons] at h
    split at h
    · next p hp =>
      cases h
      exact matchAt_rest_lt hp
    · next =>
      have := ih h
      simp only [List.length_cons]
      omega

theorem findAllAux_congr :
    ∀ (f g : Nat) (t : List Char), t.length ≤ f → t.length ≤ g →
      findAllAux f t = findAllAux g t := by
  intro f
  induction f with
  | zero =>
    intro g t hf hg
    have ht : t = [] := List.eq_nil_of_length_eq_zero (Nat.le_zero.mp hf)
    subst ht
    cases g with
    | zero => rfl
    | succ g => rfl
  | succ f ihf =>
    intro g t hf hg
    cases g with
    | zero =>
      have ht : t = [] := List.eq_nil_of_length_eq_zero (Nat.le_zero.mp hg)
      subst ht
      rfl
    | succ g =>
      show (match findFirst t with
            | none => []
            | some (m, r) => m :: findAllAux f r) =
           (match findFirst t with
            | none => []
            | some (m, r) => m :: findAllAux g r)
      cases hft : findFirst t with
      | none => rfl
      | some p =>
        obtain ⟨m, r⟩ := p
        have hr := findFirst_rest_lt hft
        simp only []
        rw [ihf g r (by omega) (by omega)]

theorem findAll_eq (t : List Char) :
    findAll t = match findFirst t with
      | none => []
      | some (m, r) => m :: findAll r := by
  cases t with
  | nil => rfl
  | cons c t0 =>
    show findAllAux (t0.length + 1) (c :: t0) = _
    show (match findFirst (c :: t0) with
          | none => []
          | some (m, r) => m :: findAllAux t0.length r) = _
    cases hft : findFirst (c :: t0) with
    | none => rfl
    | some p =>
      obtain ⟨m, r⟩ := p
      have hr := findFirst_rest_lt hft
      simp only [List.length_cons] at hr
      simp only []
      rw [show findAll r = findAllAux r.length r from rfl,
        findAllAux_congr t0.length r.length r (by omega) (le_refl _)]

theorem findAll_skip {x z : List Char}
    (hx : ∀ k, k < x.length → matchAt ((x ++ z).drop k) = none) :
    findAll (x ++ z) = findAll z := by
  rw [findAll_eq, findFirst_skip hx, ← findAll_eq]

theorem findFirst_of_matchAt {t : List Char} {p : MMatch × List Char}
    (h : matchAt t = some p) : findFirst t = some p := by
  cases t with
  | nil => rw [show matchAt ([] : List Char) = none from rfl] at h; cases h
  | cons c t => rw [findFirst_cons, h]

theorem matchAt_none_in_junk {x : List Char} (hx : HdrFree x) {i c j R : List Char} :
    ∀ k, k < x.length → matchAt ((x ++ (gcore i c j ++ R)).drop k) = none := by
  intro k hk
  apply matchAt_none_of_not_begin
  intro hpre
  rw [gcore_append, beginChars_split] at hpre
  exact no_hdr_headed_at hx k hk hpre

theorem not_begin_prefix_nl {X : List Char} : ¬ beginChars <+: (nlChar :: X) := by
  intro h
  rw [show beginChars = '#' :: " === SKILL-HUB BEGIN: ".data from by decide] at h
  rw [show nlChar = '\n' from rfl, List.cons_prefix_cons] at h
  exact absurd h.1 (by decide)

/-- A file that is a concatenation of marker blocks, each carrying its
trailing newline (the shape `Apply` writes). -/
def blocksFile : List (List Char × List Char × List Char) → List Char
  | [] => []
  | t :: rest => gcore t.1 t.2.1 t.2.2 ++ ([nlChar] ++ blocksFile rest)

/-- The same blocks separated by newlines but with no trailing one (the
shape left behind once `Remove` trims the file). -/
def coreFile : List (List Char × List Char × List Char) → List Char
  | [] => []
  | [t] => gcore t.1 t.2.1 t.2.2
  | t :: rest => gcore t.1 t.2.1 t.2.2 ++ ([nlChar] ++ coreFile rest)

/-- Hypotheses making a block list well-behaved: whitespace-free ids and
header-free content. -/
def GoodBlocks (l : List (List Char × List Char × List Char)) : Prop :=
  ∀ t ∈ l, SpaceFree t.1 ∧ HdrFree t.2.1 ∧ SpaceFree t.2.2

instance : DecidablePred GoodBlocks := fun l => by unfold GoodBlocks; infer_instance

theorem findAll_nl_cons (X : List Char) : findAll (nlChar :: X) = findAll X := by
  have h : findAll ([nlChar] ++ X) = findAll X := by
    refine findAll_skip ?_
    intro k hk
    have hk0 : k = 0 := by simpa using hk
    subst hk0
    rw [List.drop_zero, List.singleton_append]
    exact matchAt_none_of_not_begin not_begin_prefix_nl
  simpa using h

theorem findAll_blocksFile :
    ∀ l : List (List Char × List Char × List Char), GoodBlocks l →
      findAll (blocksFile l) = l.map (fun t => MMatch.mk t.1 t.2.1 t.2.2) := by
  intro l
  induction l with
  | nil => intro _; rfl
  | cons t rest ih =>
    intro hg
    obtain ⟨hi, hc, hj⟩ := hg t (by simp)
    rw [show blocksFile (t :: rest) =
          gcore t.1 t.2.1 t.2.2 ++ ([nlChar] ++ blocksFile rest) from rfl]
    rw [findAll_eq, findFirst_of_matchAt (matchAt_block hi hc hj)]
    simp only [List.singleton_append]
    rw [findAll_nl_cons]
    rw [ih (fun u hu => hg u (by simp [hu]))]
    rfl

theorem findAll_coreFile :
    ∀ l : List (List Char × List Char × List Char), GoodBlocks l →
      findAll (coreFile l) = l.map (fun t => MMatch.mk t.1 t.2.1 t.2.2) := by
  intro l
  induction l with
  | nil => intro _; rfl
  | cons t rest ih =>
    intro hg
    obtain ⟨hi, hc, hj⟩ := hg t (by simp)
    cases rest with
    | nil =>
      rw [show coreFile [t] = gcore t.1 t.2.1 t.2.2 from rfl]
      rw [← List.append_nil (gcore t.1 t.2.1 t.2.2)]
      rw [findAll_eq, findFirst_of_matchAt (matchAt_block hi hc hj)]
      simp only []
      rfl
    | cons u rest2 =>
      rw [show coreFile (t :: u :: rest2) =
            gcore t.1 t.2.1 t.2.2 ++ ([nlChar] ++ coreFile (u :: rest2)) from rfl]
      rw [findAll_eq, findFirst_of_matchAt (matchAt_block hi hc hj)]
      simp only [List.singleton_append]
      rw [findAll_nl_cons]
      rw [ih (fun v hv => hg v (by simp [hv]))]
      rfl

theorem blocksFile_eq_coreFile :
    ∀ l : List (List Char × List Char × List Char), l ≠ [] →
      blocksFile l = coreFile l ++ [nlChar] := by
  intro l
  induction l with
  | nil => intro h; exact absurd rfl h
  | cons t rest ih =>
    intro _
    cases rest with
    | nil => rfl
    | cons u rest2 =>
      rw [show blocksFile (t :: u :: rest2) =
            gcore t.1 t.2.1 t.2.2 ++ ([nlChar] ++ blocksFile (u :: rest2)) from rfl,
        ih (by simp),
        show coreFile (t :: u :: rest2) =
            gcore t.1 t.2.1 t.2.2 ++ ([nlChar] ++ coreFile (u :: rest2)) from rfl]
      simp [List.append_assoc]

theorem splitFirst_split {sep : List Char} :
    ∀ {s a b : List Char}, splitFirst sep s = some (a, b) → s = a ++ (sep ++ b) := by
  intro s
  induction s with
  | nil =>
    intro a b h
    rw [splitFirst] at h
    split at h
    · next hp =>
      cases h
      have := isPrefixOfIff.mp hp
      have hsep : sep = [] := List.prefix_nil.mp this
      simp [hsep]
    · cases h
  | cons c t ih =>
    intro a b h
    rw [splitFirst] at h
    split at h
    · next hp =>
      cases h
      have hpre := isPrefixOfIff.mp hp
      obtain ⟨u, hu⟩ := hpre
      rw [List.nil_append, ← hu, List.drop_left]
    · next hp =>
      split at h
      · next p hp2 =>
        cases h
        rw [List.cons_append, ← ih hp2]
      · cases h

theorem splitFirst_exact {sep : List Char} (hne : sep ≠ []) :
    ∀ {x y : List Char},
      (∀ k, k < x.length → ¬ sep <+: ((x ++ (sep ++ y)).drop k)) →
      splitFirst sep (x ++ (sep ++ y)) = some (x, y) := by
  intro x
  induction x with
  | nil =>
    intro y _
    rw [List.nil_append]
    cases sep with
    | nil => exact absurd rfl hne
    | cons c s0 =>
      rw [List.cons_append, splitFirst, if_pos (by
        rw [isPrefixOfIff, ← List.cons_append]
        exact List.prefix_append _ _)]
      rw [← List.cons_append, List.drop_left]
  | cons a x ih =>
    intro y hearly
    rw [List.cons_append, splitFirst]
    rw [if_neg (by
      intro hb
      have h0 := hearly 0 (by simp)
      rw [List.drop_zero, List.cons_append] at h0
      exact h0 (isPrefixOfIff.mp hb))]
    rw [ih (fun k hk => by
      have h2 := hearly (k + 1) (by simpa using Nat.succ_lt_succ hk)
      rwa [List.cons_append, List.drop_succ_cons] at h2)]

theorem findSpecM_cons (id : List Char) (ch : Char) (t : List Char) :
    findSpecM id (ch :: t) =
      match (if (markerBegin id).isPrefixOf (ch :: t) then
               match splitFirst (markerEnd id) ((ch :: t).drop (markerBegin id).length) with
               | some p =>
                 some (([] : List Char), markerBegin id ++ p.1 ++ markerEnd id, p.2)
               | none => none
             else none) with
      | some res => some res
      | none =>
        match findSpecM id t with
        | some p => some (ch :: p.1, p.2.1, p.2.2)
        | none => none := rfl

theorem markerBegin_split (id : List Char) :
    markerBegin id =
      hdrChars ++ (" BEGIN: ".data ++ (id ++ (eqsChars ++ [nlChar]))) := by
  rw [markerBegin, beginChars_split]
  simp [List.append_assoc]

theorem hdr_prefix_markerBegin (id : List Char) : hdrChars <+: markerBegin id := by
  rw [markerBegin_split]
  exact List.prefix_append _ _

theorem findSpecM_eq_none {id t : List Char} (h : HdrFree t) : findSpecM id t = none := by
  induction t with
  | nil => rfl
  | cons c t ih =>
    rw [findSpecM_cons]
    rw [if_neg (by
      intro hb
      exact h (((hdr_prefix_markerBegin id).trans (isPrefixOfIff.mp hb)).isInfix))]
    rw [ih (fun hinf => h (hinf.trans (List.suffix_cons c t).isInfix))]

theorem markerBegin_ne_nil (id : List Char) : markerBegin id ≠ [] := by
  rw [markerBegin_split]
  simp [hdrChars]

theorem findSpecM_split {id : List Char} :
    ∀ {s p w r : List Char}, findSpecM id s = some (p, w, r) →
      s = p ++ (w ++ r) ∧ w ≠ [] := by
  intro s
  induction s with
  | nil => intro p w r h; cases h
  | cons c t ih =>
    intro p w r h
    rw [findSpecM_cons] at h
    split at h
    · next res hres =>
      cases h
      split at hres
      · next hb =>
        split at hres
        · next q hq =>
          cases hres
          have hsplit := splitFirst_split hq
          obtain ⟨u, hu⟩ := isPrefixOfIff.mp hb
          constructor
          · rw [List.nil_append, ← hu]
            have hu2 : u = q.1 ++ (markerEnd id ++ q.2) := by
              rw [← hsplit, ← hu, List.drop_left]
            rw [hu2]
            simp [List.append_assoc]
          · intro hw
            obtain ⟨h1, h2⟩ := List.append_eq_nil.mp hw
            obtain ⟨h3, h4⟩ := List.append_eq_nil.mp h1
            exact markerBegin_ne_nil id h3
        · cases hres
      · cases hres
    · next =>
      split at h
      · next q hq =>
        cases h
        obtain ⟨hsp, hw⟩ := ih hq
        exact ⟨by rw [List.cons_append, ← hsp], hw⟩
      · cases h

theorem no_markerBegin_in_junk {x W id : List Char} (hx : HdrFree x) :
    ∀ k, k < x.length → ¬ markerBegin id <+: ((x ++ (markerBegin id ++ W)).drop k) := by
  intro k hk h
  rw [markerBegin_split] at h
  exact no_hdr_headed_at hx k hk h

theorem markerEnd_cons (id : List Char) :
    markerEnd id = '\n' :: (endChars ++ id ++ eqsChars) := rfl

theorem hdr_isInfix_markerEnd (id : List Char) : hdrChars <:+: markerEnd id := by
  refine ⟨['\n'], " END: ".data ++ id ++ eqsChars, ?_⟩
  rw [markerEnd_cons, endChars_split]
  simp [List.append_assoc]

theorem no_markerEnd_at {c y id : List Char} (hc : HdrFree c) (hid : SpaceFree id) :
    ∀ k, k < c.length → ¬ markerEnd id <+: ((c ++ (markerEnd id ++ y)).drop k) := by
  intro k hk h
  rw [markerEnd_cons] at h
  refine no_early_occurrence ?_ ?_ k hk h
  · intro hmem
    simp only [List.mem_append] at hmem
    rcases hmem with (hmem | hmem) | hmem
    · exact absurd hmem (by decide)
    · exact absurd (hid '\n' hmem) (by decide)
    · exact absurd hmem (by decide)
  · intro hinf
    exact hc ((hdr_isInfix_markerEnd id).trans hinf)

theorem findSpecM_found {id x c y : List Char}
    (hx : ∀ k, k < x.length →
      ¬ markerBegin id <+: ((x ++ (markerBegin id ++ (c ++ (markerEnd id ++ y)))).drop k))
    (hc : ∀ k, k < c.length → ¬ markerEnd id <+: ((c ++ (markerEnd id ++ y)).drop k)) :
    findSpecM id (x ++ (markerBegin id ++ (c ++ (markerEnd id ++ y)))) =
      some (x, markerBegin id ++ c ++ markerEnd id, y) := by
  induction x with
  | nil =>
    rw [List.nil_append]
    have hne := markerBegin_ne_nil id
    cases hmb : markerBegin id with
    | nil => exact absurd hmb hne
    | cons b bs =>
      rw [← hmb,
        show markerBegin id ++ (c ++ (markerEnd id ++ y)) =
          b :: (bs ++ (c ++ (markerEnd id ++ y))) by rw [hmb]; rfl]
      rw [findSpecM_cons]
      rw [show b :: (bs ++ (c ++ (markerEnd id ++ y))) =
        markerBegin id ++ (c ++ (markerEnd id ++ y)) by rw [hmb]; rfl]
      rw [if_pos (by rw [isPrefixOfIff]; exact List.prefix_append _ _)]
      rw [List.drop_left]
      rw [splitFirst_exact (by rw [markerEnd_cons]; simp) hc]
  | cons a x ih =>
    rw [List.cons_append, findSpecM_cons]
    rw [if_neg (fun hb => by
      have h0 := hx 0 (by simp)
      rw [List.drop_zero, List.cons_append] at h0
      exact h0 (isPrefixOfIff.mp hb))]
    rw [ih (fun k hk => by
      have h2 := hx (k + 1) (by simpa using Nat.succ_lt_succ hk)
      rwa [List.cons_append, List.drop_succ_cons] at h2)]

theorem findSpecM_rest_lt {id s p w r : List Char}
    (h : findSpecM id s = some (p, w, r)) : r.length < s.length := by
  obtain ⟨hs, hw⟩ := findSpecM_split h
  have hlen := congrArg List.length hs
  simp only [List.length_append] at hlen
  cases w with
  | nil => exact absurd rfl hw
  | cons a as =>
    simp only [List.length_cons] at hlen
    omega

theorem dropNl_length_le (r : List Char) : (dropNl r).length ≤ r.length := by
  cases r with
  | nil => exact le_refl _
  | cons c t =>
    rw [dropNl]
    split
    · simp
    · exact le_refl _

theorem replAllAux_congr (id mb : List Char) :
    ∀ (f g : Nat) (s : List Char), s.length ≤ f → s.length ≤ g →
      replAllAux id mb f s = replAllAux id mb g s := by
  intro f
  induction f with
  | zero =>
    intro g s hf hg
    have hs : s = [] := List.eq_nil_of_length_eq_zero (Nat.le_zero.mp hf)
    subst hs
    cases g with
    | zero => rfl
    | succ g => rfl
  | succ f ihf =>
    intro g s hf hg
    cases g with
    | zero =>
      have hs : s = [] := List.eq_nil_of_length_eq_zero (Nat.le_zero.mp hg)
      subst hs
      rfl
    | succ g =>
      show (match findSpecM id s with
            | none => s
            | some (p, w, r) => p ++ expandRepl w mb ++ replAllAux id mb f r) =
           (match findSpecM id s with
            | none => s
            | some (p, w, r) => p ++ expandRepl w mb ++ replAllAux id mb g r)
      cases hsp : findSpecM id s with
      | none => rfl
      | some q =>
        obtain ⟨p, w, r⟩ := q
        have hr := findSpecM_rest_lt hsp
        simp only []
        rw [ihf g r (by omega) (by omega)]

theorem replAll_eq (id mb s : List Char) :
    replAll id mb s = match findSpecM id s with
      | none => s
      | some (p, w, r) => p ++ expandRepl w mb ++ replAll id mb r := by
  cases s with
  | nil => rfl
  | cons c t0 =>
    show replAllAux id mb (t0.length + 1) (c :: t0) = _
    show (match findSpecM id (c :: t0) with
          | none => c :: t0
          | some (p, w, r) => p ++ expandRepl w mb ++ replAllAux id mb t0.length r) = _
    cases hsp : findSpecM id (c :: t0) with
    | none => rfl
    | some q =>
      obtain ⟨p, w, r⟩ := q
      have hr := findSpecM_rest_lt hsp
      simp only [List.length_cons] at hr
      simp only []
      rw [show replAll id mb r = replAllAux id mb r.length r from rfl,
        replAllAux_congr id mb t0.length r.length r (by omega) (le_refl _)]

theorem removeAllAux_congr (id : List Char) :
    ∀ (f g : Nat) (s : List Char), s.length ≤ f → s.length ≤ g →
      removeAllAux id f s = removeAllAux id g s := by
  intro f
  induction f with
  | zero =>
    intro g s hf hg
    have hs : s = [] := List.eq_nil_of_length_eq_zero (Nat.le_zero.mp hf)
    subst hs
    cases g with
    | zero => rfl
    | succ g => rfl
  | succ f ihf =>
    intro g s hf hg
    cases g with
    | zero =>
      have hs : s = [] := List.eq_nil_of_length_eq_zero (Nat.le_zero.mp hg)
      subst hs
      rfl
    | succ g =>
      show (match findSpecM id s with
            | none => s
            | some (p, _, r) => p ++ removeAllAux id f (dropNl r)) =
           (match findSpecM id s with
            | none => s
            | some (p, _, r) => p ++ removeAllAux id g (dropNl r))
      cases hsp : findSpecM id s with
      | none => rfl
      | some q =>
        obtain ⟨p, w, r⟩ := q
        have hr := findSpecM_rest_lt hsp
        have hd := dropNl_length_le r
        simp only []
        rw [ihf g (dropNl r) (by omega) (by omega)]

theorem removeAll_eq (id s : List Char) :
    removeAll id s = match findSpecM id s with
      | none => s
      | some (p, _, r) => p ++ removeAll id (dropNl r) := by
  cases s with
  | nil => rfl
  | cons c t0 =>
    show removeAllAux id (t0.length + 1) (c :: t0) = _
    show (match findSpecM id (c :: t0) with
          | none => c :: t0
          | some (p, _, r) => p ++ removeAllAux id t0.length (dropNl r)) = _
    cases hsp : findSpecM id (c :: t0) with
    | none => rfl
    | some q =>
      obtain ⟨p, w, r⟩ := q
      have hr := findSpecM_rest_lt hsp
      simp only [List.length_cons] at hr
      have hd := dropNl_length_le r
      simp only []
      rw [show removeAll id (dropNl r) = removeAllAux id (dropNl r).length (dropNl r) from rfl,
        removeAllAux_congr id t0.length (dropNl r).length (dropNl r) (by omega) (le_refl _)]

theorem expandReplAux_no_dollar (w : List Char) :
    ∀ (f : Nat) (t : List Char), t.length ≤ f → ('$' : Char) ∉ t →
      expandReplAux w f t = t := by
  intro f
  induction f with
  | zero =>
    intro t hf _
    have ht : t = [] := List.eq_nil_of_length_eq_zero (Nat.le_zero.mp hf)
    subst ht
    rfl
  | succ f ihf =>
    intro t hf hd
    cases t with
    | nil => rfl
    | cons c rest =>
      simp only [expandReplAux]
      rw [if_neg (fun hc => hd (by rw [hc]; exact List.mem_cons_self _ _))]
      rw [ihf rest (by simpa using Nat.le_of_succ_le_succ hf)
        (fun hm => hd (List.mem_cons_of_mem c hm))]

theorem expandRepl_no_dollar {w t : List Char} (hd : ('$' : Char) ∉ t) :
    expandRepl w t = t :=
  expandReplAux_no_dollar w t.length t (le_refl _) hd

theorem splitFirst_none {sep : List Char} (hne : sep ≠ []) :
    ∀ {s : List Char}, ¬ sep <:+: s → splitFirst sep s = none := by
  intro s
  induction s with
  | nil =>
    intro h
    rw [splitFirst]
    rw [if_neg (fun hb => by
      have := isPrefixOfIff.mp hb
      exact hne (List.prefix_nil.mp this))]
  | cons c t ih =>
    intro h
    rw [splitFirst]
    rw [if_neg (fun hb => h (isPrefixOfIff.mp hb).isInfix)]
    rw [ih (fun hinf => h (hinf.trans (List.suffix_cons c t).isInfix))]

theorem replaceAllStr_of_no_occurrence {pat rep s : List Char} (h : ¬ pat <:+: s) :
    replaceAllStr pat rep s = s := by
  rw [replaceAllStr]
  by_cases hp : pat = []
  · rw [if_pos hp]
  · rw [if_neg hp]
    cases s with
    | nil => rfl
    | cons c t =>
      show (match splitFirst pat (c :: t) with
            | none => c :: t
            | some (pre, rest) => pre ++ rep ++ replaceAllStrAux pat rep t.length rest) = _
      rw [splitFirst_none hp h]

theorem renderCore_of_no_placeholder :
    ∀ (vars : List (List Char × List Char)) (t : List Char),
      (∀ kv ∈ vars, ¬ (placeholder kv.1) <:+: t) → renderCore t vars = t := by
  intro vars
  induction vars with
  | nil => intro t _; rfl
  | cons kv rest ih =>
    intro t h
    show renderCore (replaceAllStr (placeholder kv.1) kv.2 t) rest = t
    rw [replaceAllStr_of_no_occurrence (h kv (by simp))]
    exact ih t (fun kv2 hm => h kv2 (by simp [hm]))

theorem getElem?_append_left' {l₁ l₂ : List Char} {n : Nat} (h : n < l₁.length) :
    (l₁ ++ l₂)[n]? = l₁[n]? := by
  rw [List.getElem?_append, if_pos h]

theorem prefix_of_forall_getElem? {P s : List Char} (_hlen : P.length ≤ s.length)
    (h : ∀ m, m < P.length → s[m]? = P[m]?) : P <+: s := by
  rw [List.prefix_iff_eq_take]
  apply List.ext_getElem?
  intro n
  rw [List.getElem?_take]
  by_cases hn : n < P.length
  · rw [if_pos hn, h n hn]
  · rw [if_neg hn]
    exact List.getElem?_eq_none (by omega)

theorem beginChars_length : beginChars.length = 23 := by decide

theorem sep1_length : sep1.length = 5 := by decide

theorem sep2_length : sep2.length = 22 := by decide

theorem sep3_length : sep3.length = 4 := by decide

theorem hdrChars_length : hdrChars.length = 15 := by decide

theorem gcore_length (i c j : List Char) :
    (gcore i c j).length = 54 + i.length + c.length + j.length := by
  simp only [gcore, List.length_append, beginChars_length, sep1_length, sep2_length,
    sep3_length]
  omega

/-- Position-by-position description of a block followed by arbitrary text. -/
theorem gcoreW_getElem (i b j W : List Char) (p : Nat) :
    (gcore i b j ++ W)[p]? =
      if p < 23 then beginChars[p]?
      else if p < 23 + i.length then i[p - 23]?
      else if p < 28 + i.length then sep1[p - (23 + i.length)]?
      else if p < 28 + i.length + b.length then b[p - (28 + i.length)]?
      else if p < 50 + i.length + b.length then sep2[p - (28 + i.length + b.length)]?
      else if p < 50 + i.length + b.length + j.length then
        j[p - (50 + i.length + b.length)]?
      else if p < 54 + i.length + b.length + j.length then
        sep3[p - (50 + i.length + b.length + j.length)]?
      else W[p - (54 + i.length + b.length + j.length)]? := by
  rw [gcore_append]
  by_cases h1 : p < 23
  · rw [if_pos h1, getElem?_append_left' (by rw [beginChars_length]; omega)]
  rw [if_neg h1, List.getElem?_append_right (by rw [beginChars_length]; omega),
    beginChars_length]
  by_cases h2 : p < 23 + i.length
  · rw [if_pos h2, getElem?_append_left' (by omega)]
  rw [if_neg h2, List.getElem?_append_right (by omega)]
  by_cases h3 : p < 28 + i.length
  · rw [if_pos h3, getElem?_append_left' (by rw [sep1_length]; omega)]
    congr 1
    omega
  rw [if_neg h3, List.getElem?_append_right (by rw [sep1_length]; omega), sep1_length]
  by_cases h4 : p < 28 + i.length + b.length
  · rw [if_pos h4, getElem?_append_left' (by omega)]
    congr 1
    omega
  rw [if_neg h4, List.getElem?_append_right (by omega)]
  by_cases h5 : p < 50 + i.length + b.length
  · rw [if_pos h5, getElem?_append_left' (by rw [sep2_length]; omega)]
    congr 1
    omega
  rw [if_neg h5, List.getElem?_append_right (by rw [sep2_length]; omega), sep2_length]
  by_cases h6 : p < 50 + i.length + b.length + j.length
  · rw [if_pos h6, getElem?_append_left' (by omega)]
    congr 1
    omega
  rw [if_neg h6, List.getElem?_append_right (by omega)]
  by_cases h7 : p < 54 + i.length + b.length + j.length
  · rw [if_pos h7, getElem?_append_left' (by rw [sep3_length]; omega)]
    congr 1
    omega
  rw [if_neg h7, List.getElem?_append_right (by rw [sep3_length]; omega), sep3_length]
  congr 1
  omega

/-- Inside a block (followed by nothing or by a newline), the marker header
can only be a prefix at the start of the BEGIN line or at the start of the
END delimiter (position `29 + |id| + |content|`). -/
theorem hdr_prefix_positions {i b j W : List Char} (hi : SpaceFree i) (hb : HdrFree b)
    (hj : SpaceFree j) (hW : W = [] ∨ ∃ W0, W = nlChar :: W0) :
    ∀ k, k < (gcore i b j).length → hdrChars <+: ((gcore i b j ++ W).drop k) →
      k = 0 ∨ k = 29 + i.length + b.length := by
  intro k hk h
  obtain ⟨t, ht⟩ := h
  have hel : ∀ m, m < 15 → (gcore i b j ++ W)[k + m]? = hdrChars[m]? := by
    intro m hm
    have e1 : ((gcore i b j ++ W).drop k)[m]? = (gcore i b j ++ W)[k + m]? :=
      List.getElem?_drop _ k m
    rw [← ht, getElem?_append_left' (by rw [hdrChars_length]; omega)] at e1
    exact e1.symm
  rw [gcore_length] at hk
  by_cases k0 : k = 0
  · exact Or.inl k0
  by_cases kE : k = 29 + i.length + b.length
  · exact Or.inr kE
  exfalso
  by_cases hr1 : k < 23
  · have e := hel 0 (by omega)
    rw [gcoreW_getElem, if_pos (by omega)] at e
    rw [show hdrChars[0]? = some '#' from by decide] at e
    have e2 : (beginChars.drop 1)[k - 1]? = some '#' := by
      rw [List.getElem?_drop, show 1 + (k - 1) = k + 0 by omega]
      exact e
    exact absurd (List.getElem?_mem e2) (by decide)
  by_cases hr2 : k < 23 + i.length
  · by_cases hr2a : k + 1 < 23 + i.length
    · have e := hel 1 (by omega)
      rw [gcoreW_getElem, if_neg (by omega), if_pos (by omega)] at e
      rw [show hdrChars[1]? = some ' ' from by decide] at e
      exact absurd (hi ' ' (List.getElem?_mem e)) (by decide)
    · have e := hel 5 (by omega)
      rw [gcoreW_getElem, if_neg (by omega), if_neg (by omega), if_pos (by omega)] at e
      rw [show k + 5 - (23 + i.length) = 4 by omega] at e
      rw [show sep1[4]? = some '\n' from by decide,
        show hdrChars[5]? = some ' ' from by decide] at e
      exact absurd e (by decide)
  by_cases hr3 : k < 28 + i.length
  · have e := hel 0 (by omega)
    rw [gcoreW_getElem, if_neg (by omega), if_neg (by omega), if_pos (by omega)] at e
    rw [show hdrChars[0]? = some '#' from by decide] at e
    exact absurd (List.getElem?_mem e) (by decide)
  by_cases hr4 : k < 28 + i.length + b.length
  · by_cases hr4a : k + 15 ≤ 28 + i.length + b.length
    · apply hb
      refine prefix_of_drop_isInfix (k := k - (28 + i.length))
        (prefix_of_forall_getElem? ?_ ?_)
      · rw [List.length_drop, hdrChars_length]
        omega
      · intro m hm
        rw [hdrChars_length] at hm
        have e := hel m (by omega)
        rw [gcoreW_getElem, if_neg (by omega), if_neg (by omega), if_neg (by omega),
          if_pos (by omega)] at e
        rw [List.getElem?_drop, show k - (28 + i.length) + m = k + m - (28 + i.length)
          by omega]
        exact e
    · have e := hel (28 + i.length + b.length - k) (by omega)
      rw [gcoreW_getElem, if_neg (by omega), if_neg (by omega), if_neg (by omega),
        if_neg (by omega), if_pos (by omega)] at e
      rw [show k + (28 + i.length + b.length - k) - (28 + i.length + b.length) = 0
        by omega] at e
      rw [show sep2[0]? = some '\n' from by decide] at e
      exact absurd (List.getElem?_mem e.symm) (by decide)
  by_cases hr5 : k < 30 + i.length + b.length
  · have hk5 : k = 28 + i.length + b.length := by omega
    have e := hel 0 (by omega)
    rw [gcoreW_getElem, if_neg (by omega), if_neg (by omega), if_neg (by omega),
      if_neg (by omega), if_pos (by omega)] at e
    rw [show k + 0 - (28 + i.length + b.length) = 0 by omega] at e
    rw [show sep2[0]? = some '\n' from by decide,
      show hdrChars[0]? = some '#' from by decide] at e
    exact absurd e (by decide)
  by_cases hr6 : k < 50 + i.length + b.length
  · have e := hel 0 (by omega)
    rw [gcoreW_getElem, if_neg (by omega), if_neg (by omega), if_neg (by omega),
      if_neg (by omega), if_pos (by omega)] at e
    rw [show hdrChars[0]? = some '#' from by decide] at e
    have e2 : (sep2.drop 2)[k + 0 - (28 + i.length + b.length) - 2]? = some '#' := by
      rw [List.getElem?_drop, show 2 + (k + 0 - (28 + i.length + b.length) - 2) =
        k + 0 - (28 + i.length + b.length) by omega]
      exact e
    exact absurd (List.getElem?_mem e2) (by decide)
  by_cases hr7 : k < 50 + i.length + b.length + j.length
  · by_cases hr7a : k + 1 < 50 + i.length + b.length + j.length
    · have e := hel 1 (by omega)
      rw [gcoreW_getElem, if_neg (by omega), if_neg (by omega), if_neg (by omega),
        if_neg (by omega), if_neg (by omega), if_pos (by omega)] at e
      rw [show hdrChars[1]? = some ' ' from by decide] at e
      exact absurd (hj ' ' (List.getElem?_mem e)) (by decide)
    · have e := hel 5 (by omega)
      rw [gcoreW_getElem, if_neg (by omega), if_neg (by omega), if_neg (by omega),
        if_neg (by omega), if_neg (by omega), if_neg (by omega), if_neg (by omega)] at e
      rw [show k + 5 - (54 + i.length + b.length + j.length) = 0 by omega] at e
      rw [show hdrChars[5]? = some ' ' from by decide] at e
      rcases hW with hW | ⟨W0, hW⟩
      · rw [hW] at e
        exact absurd e (by decide)
      · rw [hW] at e
        rw [List.getElem?_cons_zero, show nlChar = '\n' from rfl] at e
        exact absurd e (by decide)
  have e := hel 0 (by omega)
  rw [gcoreW_getElem, if_neg (by omega), if_neg (by omega), if_neg (by omega),
    if_neg (by omega), if_neg (by omega), if_neg (by omega), if_pos (by omega)] at e
  rw [show hdrChars[0]? = some '#' from by decide] at e
  exact absurd (List.getElem?_mem e) (by decide)

theorem markerBegin_eq (id : List Char) : markerBegin id = beginChars ++ (id ++ sep1) := by
  simp [markerBegin, sep1, List.append_assoc]

/-- Core of id disambiguation: for whitespace-free distinct ids the literal
`<id> ===\n` cannot be a prefix of `<i> ===\n<rest>`. -/
theorem ids_sep_no_prefix :
    ∀ (id i R : List Char), SpaceFree i → SpaceFree id → i ≠ id →
      ¬ (id ++ sep1) <+: (i ++ (sep1 ++ R)) := by
  intro id
  induction id with
  | nil =>
    intro i R hi _ hne h
    cases i with
    | nil => exact hne rfl
    | cons a i2 =>
      rw [List.nil_append, show sep1 = ' ' :: "===\n".data from by decide,
        List.cons_append, List.cons_prefix_cons] at h
      have ha := hi a (List.mem_cons_self a i2)
      rw [← h.1] at ha
      exact absurd ha (by decide)
  | cons d id2 ih =>
    intro i R hi hid hne h
    cases i with
    | nil =>
      rw [List.cons_append, List.nil_append,
        show sep1 = ' ' :: "===\n".data from by decide, List.cons_append,
        List.cons_prefix_cons] at h
      have hd := hid d (List.mem_cons_self d id2)
      rw [h.1] at hd
      exact absurd hd (by decide)
    | cons a i2 =>
      rw [List.cons_append, List.cons_append, List.cons_prefix_cons] at h
      refine ih i2 R (fun ch hm => hi ch (List.mem_cons_of_mem a hm))
        (fun ch hm => hid ch (List.mem_cons_of_mem d hm))
        (fun he => hne (by rw [h.1, he])) h.2

theorem not_markerBegin_prefix_gcore {i b j id W : List Char} (hi : SpaceFree i)
    (hid : SpaceFree id) (hne : i ≠ id) :
    ¬ markerBegin id <+: (gcore i b j ++ W) := by
  intro h
  rw [markerBegin_eq, gcore_append] at h
  rw [List.prefix_append_right_inj] at h
  exact ids_sep_no_prefix id i _ hi hid hne h

/-- Dropping everything through the `\n` of the END separator exposes the
END delimiter. -/
theorem gcoreW_drop_endPos (i b j W : List Char) :
    (gcore i b j ++ W).drop (29 + i.length + b.length) =
      endChars ++ (j ++ (sep3 ++ W)) := by
  have hshape : gcore i b j ++ W =
      (beginChars ++ (i ++ (sep1 ++ (b ++ [nlChar])))) ++ (endChars ++ (j ++ (sep3 ++ W))) := by
    rw [gcore_append]
    simp [sep2, List.append_assoc]
  rw [hshape]
  rw [show 29 + i.length + b.length =
    (beginChars ++ (i ++ (sep1 ++ (b ++ [nlChar])))).length by
      simp [beginChars_length, sep1_length]
      omega]
  exact List.drop_left _ _

theorem not_markerBegin_prefix_end {id Z : List Char} :
    ¬ markerBegin id <+: (endChars ++ Z) := by
  intro h
  rw [markerBegin_split, endChars_split, List.append_assoc,
    List.prefix_append_right_inj] at h
  rw [show " BEGIN: ".data = ' ' :: 'B' :: "EGIN: ".data from by decide,
    show " END: ".data = ' ' :: 'E' :: "ND: ".data from by decide] at h
  simp only [List.cons_append] at h
  rw [List.cons_prefix_cons] at h
  have h2 := h.2
  rw [List.cons_prefix_cons] at h2
  exact absurd h2.1 (by decide)

theorem not_markerBegin_prefix_nl {id X : List Char} :
    ¬ markerBegin id <+: (nlChar :: X) := by
  intro h
  rw [markerBegin_split, hdrChars_cons, List.cons_append,
    show nlChar = '\n' from rfl, List.cons_prefix_cons] at h
  exact absurd h.1 (by decide)

/-- Inside a well-behaved block for another id (followed by end of file or a
newline), the per-skill BEGIN pattern for `id` matches nowhere. -/
theorem no_markerBegin_in_block {i b j id W : List Char} (hi : SpaceFree i)
    (hbb : HdrFree b) (hj : SpaceFree j) (hid : SpaceFree id) (hne : i ≠ id)
    (hW : W = [] ∨ ∃ W0, W = nlChar :: W0) :
    ∀ k, k < (gcore i b j).length →
      ¬ markerBegin id <+: ((gcore i b j ++ W).drop k) := by
  intro k hk h
  have hh : hdrChars <+: ((gcore i b j ++ W).drop k) :=
    (hdr_prefix_markerBegin id).trans h
  rcases hdr_prefix_positions hi hbb hj hW k hk hh with rfl | rfl
  · rw [List.drop_zero] at h
    exact not_markerBegin_prefix_gcore hi hid hne h
  · rw [gcoreW_drop_endPos] at h
    exact not_markerBegin_prefix_end h

theorem findSpecM_skip {id J X : List Char}
    (hJ : ∀ k, k < J.length → ¬ markerBegin id <+: ((J ++ X).drop k)) :
    findSpecM id (J ++ X) =
      match findSpecM id X with
      | none => none
      | some p => some (J ++ p.1, p.2.1, p.2.2) := by
  induction J with
  | nil =>
    rw [List.nil_append]
    cases findSpecM id X with
    | none => rfl
    | some p => simp
  | cons a J ih =>
    rw [List.cons_append, findSpecM_cons]
    rw [if_neg (fun hb => by
      have h0 := hJ 0 (by simp)
      rw [List.drop_zero, List.cons_append] at h0
      exact h0 (isPrefixOfIff.mp hb))]
    rw [ih (fun k hk => by
      have h2 := hJ (k + 1) (by simpa using Nat.succ_lt_succ hk)
      rwa [List.cons_append, List.drop_succ_cons] at h2)]
    cases findSpecM id X with
    | none => rfl
    | some p => simp

theorem removeAll_append_of_skip {id J X : List Char}
    (hJ : ∀ k, k < J.length → ¬ markerBegin id <+: ((J ++ X).drop k)) :
    removeAll id (J ++ X) = J ++ removeAll id X := by
  rw [removeAll_eq, findSpecM_skip hJ]
  cases hs : findSpecM id X with
  | none =>
    rw [removeAll_eq id X, hs]
  | some p =>
    obtain ⟨p1, w, r⟩ := p
    rw [removeAll_eq id X, hs]
    simp [List.append_assoc]

theorem replAll_append_of_skip {id mb J X : List Char}
    (hJ : ∀ k, k < J.length → ¬ markerBegin id <+: ((J ++ X).drop k)) :
    replAll id mb (J ++ X) = J ++ replAll id mb X := by
  rw [replAll_eq, findSpecM_skip hJ]
  cases hs : findSpecM id X with
  | none =>
    rw [replAll_eq id mb X, hs]
  | some p =>
    obtain ⟨p1, w, r⟩ := p
    rw [replAll_eq id mb X, hs]
    simp [List.append_assoc]

theorem gcore_markers (i b R : List Char) :
    gcore i b i ++ R = markerBegin i ++ (b ++ (markerEnd i ++ R)) := by
  rw [gcore_append, markerBegin_eq, markerEnd_cons]
  simp [sep1, sep2, sep3, nlChar, List.append_assoc]

/-- The per-skill pattern finds its own well-behaved block at the front. -/
theorem findSpecM_own_block {id b R : List Char} (hid : SpaceFree id) (hb : HdrFree b) :
    findSpecM id (gcore id b id ++ R) =
      some ([], markerBegin id ++ b ++ markerEnd id, R) := by
  rw [gcore_markers]
  have h := @findSpecM_found id [] b R
    (fun k hk => by simp at hk)
    (no_markerEnd_at hb hid)
  rw [List.nil_append] at h
  exact h

/-- Pair list (id, content) of well-formed blocks, as MMatch triples. -/
def wfPairs (l : List (List Char × List Char)) : List (List Char × List Char × List Char) :=
  l.map (fun e => (e.1, e.2, e.1))

/-- Well-behaved well-formed blocks: whitespace-free ids, header-free contents. -/
def GoodPairs (l : List (List Char × List Char)) : Prop :=
  ∀ e ∈ l, SpaceFree e.1 ∧ HdrFree e.2

instance : DecidablePred GoodPairs := fun l => by unfold GoodPairs; infer_instance

theorem goodBlocks_wfPairs {l : List (List Char × List Char)} (h : GoodPairs l) :
    GoodBlocks (wfPairs l) := by
  intro t ht
  rw [wfPairs, List.mem_map] at ht
  obtain ⟨e, he, rfl⟩ := ht
  obtain ⟨h1, h2⟩ := h e he
  exact ⟨h1, h2, h1⟩

theorem dropNl_nl (F : List Char) : dropNl (nlChar :: F) = F := by
  rw [dropNl, if_pos rfl]

theorem removeAll_wfChain {id : List Char} (hid : SpaceFree id) :
    ∀ l : List (List Char × List Char), GoodPairs l →
      removeAll id (blocksFile (wfPairs l)) =
        blocksFile (wfPairs (l.filter (fun e => !(e.1 == id)))) := by
  intro l
  induction l with
  | nil => intro _; rfl
  | cons e rest ih =>
    intro hg
    obtain ⟨hi, hbb⟩ := hg e (by simp)
    have hrest : GoodPairs rest := fun u hu => hg u (by simp [hu])
    by_cases heq : e.1 = id
    · rw [show blocksFile (wfPairs (e :: rest)) =
            gcore e.1 e.2 e.1 ++ ([nlChar] ++ blocksFile (wfPairs rest)) from rfl]
      rw [List.filter_cons, if_neg (by simp [heq])]
      rw [heq] at hi ⊢
      rw [removeAll_eq, findSpecM_own_block hid hbb]
      rw [show ([nlChar] ++ blocksFile (wfPairs rest)) =
            nlChar :: blocksFile (wfPairs rest) from rfl]
      simp only []
      rw [dropNl_nl, List.nil_append]
      exact ih hrest
    · rw [show blocksFile (wfPairs (e :: rest)) =
            (gcore e.1 e.2 e.1 ++ [nlChar]) ++ blocksFile (wfPairs rest) by
          rw [show blocksFile (wfPairs (e :: rest)) =
            gcore e.1 e.2 e.1 ++ ([nlChar] ++ blocksFile (wfPairs rest)) from rfl]
          rw [List.append_assoc]]
      rw [removeAll_append_of_skip (fun k hk => by
        rw [List.append_assoc, List.singleton_append]
        rw [List.length_append, List.length_singleton] at hk
        rcases Nat.lt_or_ge k (gcore e.1 e.2 e.1).length with hk2 | hk2
        · exact no_markerBegin_in_block hi hbb hi hid heq
            (Or.inr ⟨blocksFile (wfPairs rest), rfl⟩) k hk2
        · have hk3 : k = (gcore e.1 e.2 e.1).length := by omega
          rw [hk3, List.drop_left]
          exact not_markerBegin_prefix_nl)]
      rw [ih hrest]
      rw [List.filter_cons, if_pos (by simp [heq])]
      rw [show blocksFile (wfPairs (e :: rest.filter (fun e => !(e.1 == id)))) =
            gcore e.1 e.2 e.1 ++
              ([nlChar] ++ blocksFile (wfPairs (rest.filter (fun e => !(e.1 == id))))) from rfl]
      rw [List.append_assoc]

theorem head?_dropWhile {p : Char → Bool} :
    ∀ {l : List Char} {a : Char}, (l.dropWhile p).head? = some a → p a = false := by
  intro l
  induction l with
  | nil => intro a h; cases h
  | cons x xs ih =>
    intro a h
    rw [List.dropWhile_cons] at h
    split at h
    · exact ih h
    · next hx =>
      rw [List.head?_cons] at h
      cases h
      exact Bool.not_eq_true _ ▸ Bool.of_not_eq_true hx

theorem dropWhile_dropWhile (p : Char → Bool) (l : List Char) :
    List.dropWhile p (List.dropWhile p l) = List.dropWhile p l := by
  induction l with
  | nil => rfl
  | cons x xs ih =>
    rw [List.dropWhile_cons]
    split
    · exact ih
    · next hx => rw [List.dropWhile_cons, if_neg hx]

theorem trimSpace_isInfix (s : List Char) : trimSpace s <:+: s := by
  have h1 : trimSpace s <+: s.dropWhile goIsSpace := by
    rw [trimSpace, ← List.reverse_suffix, List.reverse_reverse]
    exact List.dropWhile_suffix goIsSpace
  exact h1.isInfix.trans (List.dropWhile_suffix goIsSpace).isInfix

theorem prefix_head?_eq {T D : List Char} (h : T <+: D) (hT : T ≠ []) :
    T.head? = D.head? := by
  obtain ⟨t, ht⟩ := h
  cases T with
  | nil => exact absurd rfl hT
  | cons a z =>
    rw [← ht]
    rfl

theorem trimSpace_idem (s : List Char) : trimSpace (trimSpace s) = trimSpace s := by
  rw [trimSpace, trimSpace]
  have hE : List.dropWhile goIsSpace
      (((s.dropWhile goIsSpace).reverse.dropWhile goIsSpace).reverse.reverse) =
      ((s.dropWhile goIsSpace).reverse.dropWhile goIsSpace) := by
    rw [List.reverse_reverse]
    exact dropWhile_dropWhile _ _
  have hT : List.dropWhile goIsSpace
      ((s.dropWhile goIsSpace).reverse.dropWhile goIsSpace).reverse =
      ((s.dropWhile goIsSpace).reverse.dropWhile goIsSpace).reverse := by
    set T := ((s.dropWhile goIsSpace).reverse.dropWhile goIsSpace).reverse with hTdef
    cases hT0 : T with
    | nil => rfl
    | cons a z =>
      have hpre : T <+: s.dropWhile goIsSpace := by
        rw [hTdef]
        refine List.reverse_suffix.mp ?_
        rw [List.reverse_reverse]
        exact List.dropWhile_suffix goIsSpace
      have hhead : T.head? = (s.dropWhile goIsSpace).head? :=
        prefix_head?_eq hpre (by rw [hT0]; simp)
      have ha : goIsSpace a = false := by
        apply head?_dropWhile (l := s)
        rw [← hhead, hT0, List.head?_cons]
      rw [List.dropWhile_cons, if_neg (by rw [ha]; simp)]
  rw [hT, hE]

theorem trimSpace_append_nl (x : List Char) : trimSpace (x ++ [nlChar]) = trimSpace x := by
  rw [trimSpace, trimSpace, List.dropWhile_append]
  by_cases hx : (x.dropWhile goIsSpace).isEmpty = true
  · rw [if_pos hx, List.isEmpty_iff.mp hx]
    rfl
  · rw [if_neg hx, List.reverse_append]
    rw [show [nlChar].reverse = [nlChar] from rfl, List.singleton_append,
      List.dropWhile_cons, if_pos (by decide)]

theorem trimSpace_eq_self {s : List Char}
    (h1 : ∀ a, s.head? = some a → goIsSpace a = false)
    (h2 : ∀ a, s.getLast? = some a → goIsSpace a = false) :
    trimSpace s = s := by
  rw [trimSpace]
  have hd : s.dropWhile goIsSpace = s := by
    cases hs : s with
    | nil => rfl
    | cons a z =>
      rw [List.dropWhile_cons, if_neg (by
        rw [h1 a (by rw [hs]; rfl)]
        simp)]
  rw [hd]
  have hrev : s.reverse.dropWhile goIsSpace = s.reverse := by
    cases hs : s.reverse with
    | nil => rfl
    | cons b w =>
      rw [List.dropWhile_cons, if_neg (by
        have hb : s.getLast? = some b := by
          rw [← List.head?_reverse, hs, List.head?_cons]
        rw [h2 b hb]
        simp)]
  rw [hrev, List.reverse_reverse]

theorem isInfix_append_singleton {P s : List Char} {a : Char} (h : P <:+: s ++ [a]) :
    P <:+: s ∨ a ∈ P := by
  obtain ⟨u, v, huv⟩ := h
  rcases List.eq_nil_or_concat v with rfl | ⟨v2, b, hv⟩
  · rcases List.eq_nil_or_concat P with rfl | ⟨P2, pb, hP⟩
    · exact Or.inl List.nil_infix
    · right
      rw [hP] at huv ⊢
      rw [List.concat_eq_append] at huv ⊢
      rw [List.append_nil, ← List.append_assoc] at huv
      have hlast := congrArg List.getLast? huv
      rw [List.getLast?_concat, List.getLast?_concat] at hlast
      cases hlast
      exact List.mem_append.mpr (Or.inr (List.mem_cons_self _ _))
  · left
    rw [hv, List.concat_eq_append] at huv
    have hend : (u ++ P ++ v2) ++ [b] = s ++ [a] := by
      rw [← huv]
      simp [List.append_assoc]
    have hlast := congrArg List.getLast? hend
    rw [List.getLast?_concat, List.getLast?_concat] at hlast
    cases hlast
    have hs2 := List.append_cancel_right hend
    exact ⟨u, v2, hs2⟩

theorem hdrFree_append_nl {x : List Char} (hx : HdrFree x) : HdrFree (x ++ [nlChar]) := by
  intro h
  rcases isInfix_append_singleton h with h2 | h2
  · exact hx h2
  · exact absurd h2 (by decide)

theorem hdrFree_trimSpace {f : List Char} (hf : HdrFree f) : HdrFree (trimSpace f) :=
  fun h => hf (h.trans (trimSpace_isInfix f))

theorem gcore_cons_shape (i b j : List Char) :
    gcore i b j = '#' :: (" === SKILL-HUB BEGIN: ".data ++
      (i ++ (sep1 ++ (b ++ (sep2 ++ (j ++ sep3)))))) := by
  rw [gcore, show beginChars = '#' :: " === SKILL-HUB BEGIN: ".data from by decide]
  rfl

theorem gcore_concat_shape (i b j : List Char) :
    gcore i b j = (beginChars ++ (i ++ (sep1 ++ (b ++ (sep2 ++ (j ++ " ==".data)))))) ++
      ['='] := by
  rw [gcore, show sep3 = " ==".data ++ ['='] from by decide]
  simp [List.append_assoc]

theorem coreFile_head_shape :
    ∀ (l : List (List Char × List Char × List Char)), l ≠ [] →
      ∃ z, coreFile l = '#' :: z := by
  intro l hl
  cases l with
  | nil => exact absurd rfl hl
  | cons t rest =>
    cases rest with
    | nil => exact ⟨_, gcore_cons_shape t.1 t.2.1 t.2.2⟩
    | cons u rest2 =>
      have heq : coreFile (t :: u :: rest2) = '#' :: ((" === SKILL-HUB BEGIN: ".data ++
          (t.1 ++ (sep1 ++ (t.2.1 ++ (sep2 ++ (t.2.2 ++ sep3)))))) ++
          ([nlChar] ++ coreFile (u :: rest2))) := by
        rw [show coreFile (t :: u :: rest2) =
          gcore t.1 t.2.1 t.2.2 ++ ([nlChar] ++ coreFile (u :: rest2)) from rfl,
          gcore_cons_shape, List.cons_append]
      exact ⟨_, heq⟩

theorem coreFile_concat_shape :
    ∀ (l : List (List Char × List Char × List Char)), l ≠ [] →
      ∃ z, coreFile l = z ++ ['='] := by
  intro l
  induction l with
  | nil => intro hl; exact absurd rfl hl
  | cons t rest ih =>
    intro _
    cases rest with
    | nil => exact ⟨_, gcore_concat_shape t.1 t.2.1 t.2.2⟩
    | cons u rest2 =>
      obtain ⟨z, hz⟩ := ih (by simp)
      refine ⟨gcore t.1 t.2.1 t.2.2 ++ ([nlChar] ++ z), ?_⟩
      rw [show coreFile (t :: u :: rest2) =
        gcore t.1 t.2.1 t.2.2 ++ ([nlChar] ++ coreFile (u :: rest2)) from rfl, hz]
      simp [List.append_assoc]

theorem trimSpace_coreFile {l : List (List Char × List Char × List Char)} (hl : l ≠ []) :
    trimSpace (coreFile l) = coreFile l := by
  refine trimSpace_eq_self ?_ ?_
  · intro a ha
    obtain ⟨z, hz⟩ := coreFile_head_shape l hl
    rw [hz, List.head?_cons] at ha
    cases ha
    decide
  · intro a ha
    obtain ⟨z, hz⟩ := coreFile_concat_shape l hl
    rw [hz, List.getLast?_concat] at ha
    cases ha
    decide

/-! ## Decimal numeral round trip (version bump) -/

theorem natToCharsAux_congr :
    ∀ (f g n : Nat), n < f → n < g → natToCharsAux f n = natToCharsAux g n := by
  intro f
  induction f with
  | zero => intro g n hf _; omega
  | succ f ihf =>
    intro g n hf hg
    cases g with
    | zero => omega
    | succ g =>
      simp only [natToCharsAux]
      by_cases hn : n < 10
      · rw [if_pos hn, if_pos hn]
      · have hdiv : n / 10 < n := Nat.div_lt_self (by omega) (by omega)
        rw [if_neg hn, if_neg hn, ihf g (n / 10) (by omega) (by omega)]

theorem natToChars_unfold (n : Nat) :
    natToChars n = if n < 10 then [digitChar n]
                   else natToChars (n / 10) ++ [digitChar (n % 10)] := by
  show (if n < 10 then [digitChar n] else natToCharsAux n (n / 10) ++ [digitChar (n % 10)]) = _
  by_cases hn : n < 10
  · rw [if_pos hn, if_pos hn]
  · have hdiv : n / 10 < n := Nat.div_lt_self (by omega) (by omega)
    rw [if_neg hn, if_neg hn,
      natToCharsAux_congr n (n / 10 + 1) (n / 10) (by omega) (by omega)]
    rfl

theorem digitChar_isDigit {d : Nat} (h : d < 10) : (digitChar d).isDigit = true := by
  interval_cases d <;> decide

theorem digitChar_toNat {d : Nat} (h : d < 10) : (digitChar d).toNat - 48 = d := by
  interval_cases d <;> decide

theorem natToChars_all_digits (n : Nat) : ∀ ch ∈ natToChars n, ch.isDigit = true := by
  induction n using Nat.strong_induction_on with
  | _ n ih =>
    rw [natToChars_unfold]
    by_cases hn : n < 10
    · rw [if_pos hn]
      intro ch hch
      rw [List.mem_singleton] at hch
      rw [hch]
      exact digitChar_isDigit hn
    · rw [if_neg hn]
      intro ch hch
      rcases List.mem_append.mp hch with hch | hch
      · exact ih (n / 10) (Nat.div_lt_self (by omega) (by omega)) ch hch
      · rw [List.mem_singleton] at hch
        rw [hch]
        exact digitChar_isDigit (Nat.mod_lt _ (by omega))

theorem parseIntDigits_append (ys : List Char) :
    ∀ (xs : List Char) (acc : Nat), (∀ ch ∈ xs, ch.isDigit = true) →
      parseIntDigits acc (xs ++ ys) = parseIntDigits (parseIntDigits acc xs) ys := by
  intro xs
  induction xs with
  | nil => intro acc _; rfl
  | cons x xs2 ih =>
    intro acc hd
    have hx : x.isDigit = true := hd x (List.mem_cons_self _ _)
    rw [List.cons_append]
    simp only [parseIntDigits]
    rw [if_pos hx, if_pos hx]
    exact ih _ (fun ch hm => hd ch (List.mem_cons_of_mem x hm))

theorem parseIntDigits_natToChars (n : Nat) :
    ∀ acc, parseIntDigits acc (natToChars n) =
      acc * 10 ^ (natToChars n).length + n := by
  induction n using Nat.strong_induction_on with
  | _ n ih =>
    intro acc
    by_cases hn : n < 10
    · rw [natToChars_unfold, if_pos hn]
      simp only [parseIntDigits]
      rw [if_pos (digitChar_isDigit hn), digitChar_toNat hn]
      simp only [List.length_singleton, pow_one]
      omega
    · rw [natToChars_unfold, if_neg hn]
      rw [parseIntDigits_append _ _ _ (natToChars_all_digits (n / 10))]
      rw [ih (n / 10) (Nat.div_lt_self (by omega) (by omega)) acc]
      simp only [parseIntDigits]
      rw [if_pos (digitChar_isDigit (Nat.mod_lt _ (by omega))),
        digitChar_toNat (Nat.mod_lt _ (by omega))]
      simp only [List.length_append, List.length_singleton]
      rw [pow_succ]
      have hmod := Nat.div_add_mod n 10
      ring_nf
      omega

theorem natToChars_ne_nil (n : Nat) : natToChars n ≠ [] := by
  rw [natToChars_unfold]
  by_cases hn : n < 10
  · rw [if_pos hn]; simp
  · rw [if_neg hn]; simp

theorem digitChar_not_space {d : Nat} (h : d < 10) : goIsSpace (digitChar d) = false := by
  interval_cases d <;> decide

theorem natToChars_no_space (n : Nat) : ∀ ch ∈ natToChars n, goIsSpace ch = false := by
  induction n using Nat.strong_induction_on with
  | _ n ih =>
    rw [natToChars_unfold]
    by_cases hn : n < 10
    · rw [if_pos hn]
      intro ch hch
      rw [List.mem_singleton] at hch
      rw [hch]
      exact digitChar_not_space hn
    · rw [if_neg hn]
      intro ch hch
      rcases List.mem_append.mp hch with hch | hch
      · exact ih (n / 10) (Nat.div_lt_self (by omega) (by omega)) ch hch
      · rw [List.mem_singleton] at hch
        rw [hch]
        exact digitChar_not_space (Nat.mod_lt _ (by omega))

theorem dropWhile_eq_self_of_head {p : Char → Bool} {l : List Char}
    (h : ∀ ch ∈ l, p ch = false) : l.dropWhile p = l := by
  cases l with
  | nil => rfl
  | cons a t =>
    rw [List.dropWhile_cons, if_neg (by rw [h a (List.mem_cons_self _ _)]; simp)]

theorem parseInt_natToChars (n : Nat) : parseInt (natToChars n) = Int.ofNat n := by
  have hdw : (natToChars n).dropWhile goIsSpace = natToChars n :=
    dropWhile_eq_self_of_head (natToChars_no_space n)
  obtain ⟨c, rest, hcr⟩ : ∃ c rest, natToChars n = c :: rest := by
    cases h : natToChars n with
    | nil => exact absurd h (natToChars_ne_nil n)
    | cons c rest => exact ⟨c, rest, rfl⟩
  have hdig : c.isDigit = true :=
    natToChars_all_digits n c (by rw [hcr]; exact List.mem_cons_self _ _)
  simp only [parseInt]
  rw [hdw, hcr]
  simp only []
  rw [if_neg (fun he => by rw [he] at hdig; exact absurd hdig (by decide)),
    if_neg (fun he => by rw [he] at hdig; exact absurd hdig (by decide)),
    if_pos hdig, ← hcr, parseIntDigits_natToChars n 0]
  simp

theorem splitOnDot_no_dot : ∀ {a : List Char}, ('.' : Char) ∉ a → splitOnDot a = [a] := by
  intro a
  induction a with
  | nil => intro _; rfl
  | cons c t ih =>
    intro h
    rw [splitOnDot, if_neg (fun he => h (by rw [he]; exact List.mem_cons_self _ _))]
    rw [ih (fun hm => h (List.mem_cons_of_mem c hm))]

theorem splitOnDot_append {a : List Char} (rest : List Char) (ha : ('.' : Char) ∉ a) :
    splitOnDot (a ++ '.' :: rest) = a :: splitOnDot rest := by
  induction a with
  | nil =>
    rw [List.nil_append, splitOnDot, if_pos rfl]
  | cons c t ih =>
    rw [List.cons_append, splitOnDot,
      if_neg (fun he => ha (by rw [he]; exact List.mem_cons_self _ _))]
    rw [ih (fun hm => ha (List.mem_cons_of_mem c hm))]

theorem natToChars_no_dot (n : Nat) : ('.' : Char) ∉ natToChars n := by
  intro h
  have := natToChars_all_digits n '.' h
  exact absurd this (by decide)

/-! ## Operation-level lemmas -/

theorem findAll_none_of_hdrFree {t : List Char} (h : HdrFree t) : findAll t = [] := by
  rw [findAll_eq, findFirst_none h]

theorem findAll_junk_blocks {x : List Char} (hx : HdrFree x)
    (l : List (List Char × List Char × List Char)) (hl : GoodBlocks l) :
    findAll (x ++ blocksFile l) =
      l.map (fun t => MMatch.mk t.1 t.2.1 t.2.2) := by
  cases l with
  | nil =>
    rw [show blocksFile [] = [] from rfl, List.append_nil]
    rw [findAll_none_of_hdrFree hx]
    rfl
  | cons t rest =>
    rw [show blocksFile (t :: rest) =
      gcore t.1 t.2.1 t.2.2 ++ ([nlChar] ++ blocksFile rest) from rfl]
    rw [findAll_skip (matchAt_none_in_junk hx)]
    rw [show gcore t.1 t.2.1 t.2.2 ++ ([nlChar] ++ blocksFile rest) =
      blocksFile (t :: rest) from rfl]
    exact findAll_blocksFile (t :: rest) hl

theorem Apply_append_path {f id b : List Char} (hf : HdrFree f) :
    Apply f id b =
      if trimSpace f = [] then createMarkerBlock id b
      else trimSpace f ++ ([nlChar, nlChar] ++ createMarkerBlock id b) := by
  rw [Apply, replaceOrAddMarker, findSpecM_eq_none hf]
  simp only [Option.isSome_none, Bool.false_eq_true, if_false]
  by_cases ht : trimSpace f = []
  · simp only [if_pos ht]
  · simp only [if_neg ht]
    rw [List.append_assoc]

theorem extractLoop_map (sid : List Char) :
    ∀ l : List (List Char × List Char × List Char),
      extractLoop sid (l.map (fun t => MMatch.mk t.1 t.2.1 t.2.2)) =
        match l.find? (fun t => t.1 == sid && t.2.2 == sid) with
        | none => none
        | some t => some (trimSpace t.2.1) := by
  intro l
  induction l with
  | nil => rfl
  | cons t rest ih =>
    rw [List.map_cons, List.find?_cons]
    simp only [extractLoop]
    by_cases hc : t.1 = sid ∧ t.2.2 = sid
    · rw [if_pos hc]
      have hb : (t.1 == sid && t.2.2 == sid) = true := by
        rw [Bool.and_eq_true, beq_iff_eq, beq_iff_eq]
        exact hc
      rw [hb]
    · rw [if_neg hc]
      have hb : (t.1 == sid && t.2.2 == sid) = false := by
        rw [Bool.eq_false_iff]
        intro hb
        rw [Bool.and_eq_true, beq_iff_eq, beq_iff_eq] at hb
        exact hc hb
      rw [hb]
      exact ih

theorem filter_map_ids :
    ∀ l : List (List Char × List Char × List Char),
      (((l.map (fun t => MMatch.mk t.1 t.2.1 t.2.2)).filter
          (fun m => m.id == m.id2)).map (fun m => m.id)) =
        (l.filter (fun t => t.1 == t.2.2)).map (fun t => t.1) := by
  intro l
  induction l with
  | nil => rfl
  | cons t rest ih =>
    rw [List.map_cons, List.filter_cons, List.filter_cons]
    by_cases hc : (t.1 == t.2.2) = true
    · rw [if_pos hc, if_pos hc]
      simp only [List.map_cons]
      rw [ih]
    · rw [if_neg hc, if_neg hc, ih]

theorem extract_of_findAll {file : List Char}
    {l : List (List Char × List Char × List Char)} (sid : List Char)
    (h : findAll file = l.map (fun t => MMatch.mk t.1 t.2.1 t.2.2)) :
    Extract file sid =
      match l.find? (fun t => t.1 == sid && t.2.2 == sid) with
      | none => none
      | some t => some (trimSpace t.2.1) := by
  rw [Extract, h, extractLoop_map]

theorem listSkills_of_findAll {file : List Char}
    {l : List (List Char × List Char × List Char)}
    (h : findAll file = l.map (fun t => MMatch.mk t.1 t.2.1 t.2.2)) :
    ListSkills file = (l.filter (fun t => t.1 == t.2.2)).map (fun t => t.1) := by
  rw [ListSkills, h, filter_map_ids]

/-! ## Claim theorems -/

/-- C3 counterexample: rendering `"{{.X}}"` with an empty variable mapping
returns the text unchanged, not the empty string the claim requires for a
reference to a variable absent from the mapping. -/
theorem c3_counterexample :
    renderTemplateForRemove ("\x7b\x7b.X\x7d\x7d".data) [] =
      Except.ok ("\x7b\x7b.X\x7d\x7d".data) ∧
    ("\x7b\x7b.X\x7d\x7d".data : List Char) ≠ [] := by
  exact ⟨rfl, by decide⟩

/-- C3 (amended): `renderTemplateForRemove` never fails (it always returns
`ok` of the pure replacement result), and it substitutes only the variables
present in the mapping: when no mapped variable's placeholder occurs in the
text — in particular for any reference to a variable outside the mapping —
the text is returned unchanged rather than emptied. -/
theorem renderTemplateForRemove_total_and_skips (t : List Char)
    (vars : List (List Char × List Char)) :
    renderTemplateForRemove t vars = Except.ok (renderCore t vars) ∧
    ((∀ kv ∈ vars, ¬ (placeholder kv.1) <:+: t) →
      renderTemplateForRemove t vars = Except.ok t) := by
  refine ⟨rfl, fun h => ?_⟩
  rw [renderTemplateForRemove, renderCore_of_no_placeholder vars t h]

theorem renderTemplateForRemove_witness :
    (∀ kv ∈ ([(("X".data : List Char), ("1".data : List Char))] :
        List (List Char × List Char)), ¬ (placeholder kv.1) <:+: "hello".data) ∧
    renderTemplateForRemove "hello".data [("X".data, "1".data)] =
      Except.ok "hello".data :=
  ⟨by decide,
   (renderTemplateForRemove_total_and_skips "hello".data
      [("X".data, "1".data)]).2 (by decide)⟩

/-- C5 counterexample: interrupting `writeFile` right after the backup
rename leaves the target path absent — neither fully updated to the new
content nor unchanged at the old content. -/
theorem c5_counterexample :
    writeFileStates ⟨some ['a'], none, none⟩ ['b'] =
      [⟨some ['a'], none, none⟩, ⟨none, some ['a'], none⟩,
       ⟨none, some ['a'], some ['b']⟩, ⟨some ['b'], some ['a'], none⟩] ∧
    (⟨none, some ['a'], none⟩ : FileState).main ≠ some ['a'] ∧
    (⟨none, some ['a'], none⟩ : FileState).main ≠ some ['b'] := by
  exact ⟨rfl, by decide, by decide⟩

/-- C5 (amended): after every prefix of the `writeFile` step sequence the
target path holds the old content, holds the new content, or is absent with
the old content preserved at the backup path; an uninterrupted run leaves
the target fully updated.  (The claim's stronger "fully updated or fully
unchanged" fails at the intermediate state after the backup rename.) -/
theorem writeFile_atomic_states (init : FileState) (content : List Char) :
    (∀ s ∈ writeFileStates init content,
      s.main = init.main ∨ s.main = some content ∨
        (s.main = none ∧ s.bak = init.main)) ∧
    (∀ s, (writeFileStates init content).getLast? = some s →
      s.main = some content) := by
  constructor
  · intro s hs
    simp only [writeFileStates, List.mem_cons, List.not_mem_nil, or_false] at hs
    rcases hs with rfl | rfl | rfl | rfl
    · exact Or.inl rfl
    · cases hm : init.main with
      | none => left; rw [backupStep, hm]; exact hm
      | some c => right; right; rw [backupStep, hm]; exact ⟨rfl, rfl⟩
    · cases hm : init.main with
      | none =>
        left
        rw [writeTmpStep, backupStep, hm]
        exact hm
      | some c =>
        right; right
        rw [writeTmpStep, backupStep, hm]
        exact ⟨rfl, rfl⟩
    · right; left
      rfl
  · intro s hs
    cases hs
    rfl

theorem writeFile_atomic_states_witness :
    (⟨none, some ['a'], some ['b']⟩ : FileState) ∈
        writeFileStates ⟨some ['a'], none, none⟩ ['b'] ∧
    ((⟨none, some ['a'], some ['b']⟩ : FileState).main = some ['a'] ∨
      (⟨none, some ['a'], some ['b']⟩ : FileState).main = some ['b'] ∨
      ((⟨none, some ['a'], some ['b']⟩ : FileState).main = none ∧
        (⟨none, some ['a'], some ['b']⟩ : FileState).bak = some ['a'])) :=
  ⟨by decide,
   (writeFile_atomic_states ⟨some ['a'], none, none⟩ ['b']).1 _ (by decide)⟩

/-- A boolean-or accumulation over a list is the initial value or-ed with
`List.any`. -/
theorem foldl_or_eq_any (f : AdapterView → Bool) :
    ∀ (l : List AdapterView) (b : Bool),
      l.foldl (fun acc v => acc || f v) b = (b || l.any f) := by
  intro l
  induction l with
  | nil => intro b; simp
  | cons v rest ih =>
    intro b
    rw [List.foldl_cons, ih, List.any_cons]
    cases b <;> cases f v <;> simp

/-- C6 counterexample: an adapter whose extraction returned empty content is
silently skipped, so a skill whose installed copy (empty) differs from the
rendered original (`"x"`) is not flagged as modified. -/
theorem c6_counterexample :
    checkSkillModifications [⟨true, some []⟩] ['x'] [] = false ∧
    trimSpace ([] : List Char) ≠ trimSpace (renderCore ['x'] []) := by
  exact ⟨rfl, by decide⟩

/-- C6 (amended): `checkSkillModifications` flags a modification exactly
when some adapter is supported, extracted non-empty content, and that
content trims differently from the trimmed rendered original; adapters that
are unsupported or extracted empty content are skipped even if the
installed text differs from the original. -/
theorem checkSkillModifications_iff (views : List AdapterView) (p : List Char)
    (vars : List (List Char × List Char)) :
    (checkSkillModifications views p vars = true ↔
      ∃ v ∈ views, v.supports = true ∧ ∃ b, v.extractResult = some b ∧
        b ≠ [] ∧ trimSpace b ≠ trimSpace (renderCore p vars)) ∧
    (∀ v : AdapterView, viewModified (renderCore p vars) v = true ↔
      (v.supports = true ∧ ∃ b, v.extractResult = some b ∧
        b ≠ [] ∧ trimSpace b ≠ trimSpace (renderCore p vars))) := by
  have hview : ∀ v : AdapterView, viewModified (renderCore p vars) v = true ↔
      (v.supports = true ∧ ∃ b, v.extractResult = some b ∧
        b ≠ [] ∧ trimSpace b ≠ trimSpace (renderCore p vars)) := by
    intro v
    rw [viewModified, Bool.and_eq_true]
    constructor
    · rintro ⟨hs, hm⟩
      refine ⟨hs, ?_⟩
      cases he : v.extractResult with
      | none =>
        rw [he] at hm
        exact absurd hm (fun hc => Bool.noConfusion hc)
      | some b =>
        rw [he] at hm
        simp only [] at hm
        by_cases hb : b = []
        · rw [if_pos hb] at hm; exact absurd hm (by decide)
        · rw [if_neg hb] at hm
          refine ⟨b, rfl, hb, fun hcontra => ?_⟩
          rw [hashEq, beq_iff_eq.mpr hcontra] at hm
          exact absurd hm (by decide)
    · rintro ⟨hs, b, he, hb, hne⟩
      refine ⟨hs, ?_⟩
      rw [he]
      simp only []
      rw [if_neg hb, hashEq]
      simp only [Bool.not_eq_eq_eq_not, Bool.not_true, beq_eq_false_iff_ne]
      exact hne
  refine ⟨?_, hview⟩
  have hcsm : checkSkillModifications views p vars =
      views.foldl (fun acc v => acc || viewModified (renderCore p vars) v) false :=
    rfl
  rw [hcsm]
  rw [foldl_or_eq_any (viewModified (renderCore p vars)) views false,
    Bool.false_or, List.any_eq_true]
  constructor
  · rintro ⟨v, hv, hmod⟩
    exact ⟨v, hv, (hview v).mp hmod⟩
  · rintro ⟨v, hv, h⟩
    exact ⟨v, hv, (hview v).mpr h⟩

/-- C7: `runFeedback`'s version bump leaves a version without exactly three
dot-separated parts unchanged, and turns `a.b.N` (decimal numeral `N`,
dot-free `a` and `b`) into `a.b.(N+1)`. -/
theorem feedback_version_bump :
    (∀ v : List Char, (splitOnDot v).length ≠ 3 → bumpVersion v = v) ∧
    (∀ (a bpart : List Char) (n : Nat),
      ('.' : Char) ∉ a → ('.' : Char) ∉ bpart →
      bumpVersion (a ++ '.' :: (bpart ++ '.' :: natToChars n)) =
        a ++ '.' :: (bpart ++ '.' :: natToChars (n + 1))) := by
  constructor
  · intro v h
    simp only [bumpVersion]
    rw [if_neg h]
  · intro a bpart n ha hb
    have hsplit : splitOnDot (a ++ '.' :: (bpart ++ '.' :: natToChars n)) =
        [a, bpart, natToChars n] := by
      rw [splitOnDot_append _ ha, splitOnDot_append _ hb,
        splitOnDot_no_dot (natToChars_no_dot n)]
    simp only [bumpVersion, hsplit]
    rw [if_pos (show ([a, bpart, natToChars n] : List (List Char)).length = 3 from rfl)]
    have hparse : parseInt (natToChars n) + 1 = Int.ofNat (n + 1) := by
      rw [parseInt_natToChars]
      rfl
    rw [show ([a, bpart, natToChars n].drop 2).headD [] = natToChars n from rfl,
      show ([a, bpart, natToChars n].drop 1).headD [] = bpart from rfl,
      show ([a, bpart, natToChars n] : List (List Char)).headD [] = a from rfl,
      hparse]
    have hint : intToChars (Int.ofNat (n + 1)) = natToChars (n + 1) := by
      have h0 : ¬ Int.ofNat (n + 1) < 0 :=
        fun hc => absurd hc (Int.not_lt.mpr (Int.natCast_nonneg (n + 1)))
      rw [intToChars, if_neg h0]
      rfl
    rw [hint]
    simp [List.append_assoc]

theorem feedback_version_bump_witness :
    ((splitOnDot "1.2".data).length ≠ 3 ∧ bumpVersion "1.2".data = "1.2".data) ∧
    (('.' : Char) ∉ "1".data ∧ ('.' : Char) ∉ "2".data ∧
      bumpVersion ("1".data ++ '.' :: ("2".data ++ '.' :: natToChars 3)) =
        "1".data ++ '.' :: ("2".data ++ '.' :: natToChars 4)) :=
  ⟨⟨by decide, feedback_version_bump.1 "1.2".data (by decide)⟩,
   ⟨by decide, by decide,
    feedback_version_bump.2 "1".data "2".data 3 (by decide) (by decide)⟩⟩

/-- C9 counterexample: a whitespace-only file contains no marker block for
the skill, yet `Remove` deletes it (`none`) instead of leaving it
untouched. -/
theorem c9_counterexample :
    findSpecM "a".data [' '] = none ∧
    RemoveOp (some [' ']) "a".data = Except.ok none := by
  exact ⟨by decide, rfl⟩

/-- C9 (amended): `Remove` succeeds on a missing file with nothing to do,
and on a file containing no marker block for the id it succeeds, rewriting
the file to its trimmed content when that is non-empty and deleting the
file when the content trims to empty — so a block-free file is not always
left untouched: its surrounding whitespace is stripped, and a
whitespace-only file is deleted. -/
theorem remove_absent_cases (id f : List Char) (hnb : findSpecM id f = none) :
    RemoveOp none id = Except.ok none ∧
    RemoveOp (some f) id =
      Except.ok (if trimSpace f = [] then none else some (trimSpace f)) := by
  refine ⟨rfl, ?_⟩
  have hra : removeAll id f = f := by
    rw [removeAll_eq, hnb]
  have h1 : RemoveOp (some f) id = Except.ok (RemoveContent f id) := rfl
  have h2 : RemoveContent f id =
      if trimSpace (removeAll id f) = [] then none
      else some (trimSpace (removeAll id f)) := rfl
  rw [h1, h2, hra]

theorem remove_absent_cases_witness :
    findSpecM "a".data "text".data = none ∧
    (RemoveOp none "a".data = Except.ok none ∧
      RemoveOp (some "text".data) "a".data =
        Except.ok (if trimSpace "text".data = [] then none
          else some (trimSpace "text".data))) :=
  ⟨by decide, remove_absent_cases "a".data "text".data (by decide)⟩

/-- C10: when `Apply` appends to a file with no block for the id and
non-empty trimmed content, the result is the trimmed old content, one blank
line, then the new block (so leading/trailing whitespace of the old file is
dropped); and any content `Remove` writes back is trim-stable and
non-empty. -/
theorem apply_remove_trim_frame :
    (∀ f id b, findSpecM id f = none → trimSpace f ≠ [] →
      Apply f id b =
        trimSpace f ++ ([nlChar, nlChar] ++ createMarkerBlock id b)) ∧
    (∀ f id r, RemoveOp (some f) id = Except.ok (some r) →
      trimSpace r = r ∧ r ≠ []) := by
  constructor
  · intro f id b hn ht
    rw [Apply, replaceOrAddMarker, hn]
    simp only [Option.isSome_none, Bool.false_eq_true, if_false]
    simp only [if_neg ht]
    rw [List.append_assoc]
  · intro f id r h
    have h1 : RemoveOp (some f) id = Except.ok (RemoveContent f id) := rfl
    rw [h1] at h
    have h2 : RemoveContent f id = some r := Except.ok.inj h
    have h3 : RemoveContent f id =
        if trimSpace (removeAll id f) = [] then none
        else some (trimSpace (removeAll id f)) := rfl
    rw [h3] at h2
    by_cases hc : trimSpace (removeAll id f) = []
    · rw [if_pos hc] at h2
      exact absurd h2 (by simp)
    · rw [if_neg hc] at h2
      have h4 := Option.some.inj h2
      constructor
      · rw [← h4, trimSpace_idem]
      · rw [← h4]
        exact hc

theorem apply_remove_trim_frame_witness :
    (findSpecM "a".data " hi ".data = none ∧ trimSpace " hi ".data ≠ [] ∧
      Apply " hi ".data "a".data "x".data =
        trimSpace " hi ".data ++
          ([nlChar, nlChar] ++ createMarkerBlock "a".data "x".data)) ∧
    (RemoveOp (some "z".data) "a".data = Except.ok (some "z".data) ∧
      (trimSpace "z".data = "z".data ∧ "z".data ≠ [])) :=
  ⟨⟨by decide, by decide,
    apply_remove_trim_frame.1 " hi ".data "a".data "x".data (by decide) (by decide)⟩,
   ⟨rfl, apply_remove_trim_frame.2 "z".data "a".data "z".data rfl⟩⟩

/-- C1 counterexample: content whose middle line is itself an END marker
line for the id round-trips to only its first line — `Extract` after
`Apply` returns `"x"`, not the full (trimmed) content. -/
theorem c1_counterexample :
    Extract (Apply [] "a".data "x\n# === SKILL-HUB END: a ===\ny".data)
        "a".data = some ['x'] ∧
    trimSpace "x\n# === SKILL-HUB END: a ===\ny".data ≠ ['x'] := by
  exact ⟨by decide, by decide⟩

/-- C1 (amended): for a file that nowhere contains the marker header, a
whitespace-free skill id, and rendered content that nowhere contains the
marker header, `Extract` after `Apply` returns exactly the trimmed rendered
content.  (Without the header-freeness condition on the content the
round-trip fails: the lazy `(.*?)` stops at a marker line embedded in the
content.) -/
theorem apply_extract_roundtrip (f id b : List Char) (hf : HdrFree f)
    (hid : SpaceFree id) (hb : HdrFree b) :
    Extract (Apply f id b) id = some (trimSpace b) := by
  have hgb : GoodBlocks [(id, b, id)] := by
    intro t ht2
    rw [List.mem_singleton] at ht2
    subst ht2
    exact ⟨hid, hb, hid⟩
  have hfind : ([((id, b, id) : List Char × List Char × List Char)]).find?
      (fun t => t.1 == id && t.2.2 == id) = some (id, b, id) :=
    List.find?_cons_of_pos [] (by simp)
  rw [Apply_append_path hf]
  by_cases ht : trimSpace f = []
  · rw [if_pos ht, createMarkerBlock_eq_gcore]
    rw [show gcore id b id ++ [nlChar] =
      blocksFile [(id, b, id)] from rfl]
    rw [extract_of_findAll id (findAll_blocksFile _ hgb), hfind]
  · rw [if_neg ht, createMarkerBlock_eq_gcore]
    have hx : HdrFree ((trimSpace f ++ [nlChar]) ++ [nlChar]) :=
      hdrFree_append_nl (hdrFree_append_nl (hdrFree_trimSpace hf))
    have hshape : trimSpace f ++ ([nlChar, nlChar] ++ (gcore id b id ++ [nlChar])) =
        ((trimSpace f ++ [nlChar]) ++ [nlChar]) ++ blocksFile [(id, b, id)] := by
      rw [show blocksFile [(id, b, id)] = gcore id b id ++ [nlChar] from rfl]
      simp [List.append_assoc]
    rw [hshape, extract_of_findAll id (findAll_junk_blocks hx _ hgb), hfind]

theorem apply_extract_roundtrip_witness :
    HdrFree "hello".data ∧ SpaceFree "skill".data ∧ HdrFree "Hi there".data ∧
    Extract (Apply "hello".data "skill".data "Hi there".data) "skill".data =
      some (trimSpace "Hi there".data) :=
  ⟨by decide, by decide, by decide,
   apply_extract_roundtrip "hello".data "skill".data "Hi there".data
     (by decide) (by decide) (by decide)⟩

/-- A marker block built from a dollar-free id and dollar-free content
contains no `'$'`, so Go's `ReplaceAllString` expansion leaves it
verbatim. -/
theorem no_dollar_createMarkerBlock {i c2 : List Char} (h1 : ('$' : Char) ∉ i)
    (h2 : ('$' : Char) ∉ c2) : ('$' : Char) ∉ createMarkerBlock i c2 := by
  intro h
  rw [createMarkerBlock] at h
  simp only [List.mem_append] at h
  rcases h with ((((((((h | h) | h) | h) | h) | h) | h) | h) | h) | h
  all_goals first
    | exact h1 h
    | exact h2 h
    | exact absurd h (by decide)

/-- Re-applying a skill over a file that is header-free junk followed by the
skill's own block replaces the block in place (the trailing newline of the
old block survives as a second newline after the new block). -/
theorem apply_over_own_block {J i c1 c2 : List Char} (hJ : HdrFree J)
    (hid : SpaceFree i) (hc1 : HdrFree c1)
    (hd : ('$' : Char) ∉ createMarkerBlock i c2) :
    Apply (J ++ (gcore i c1 i ++ [nlChar])) i c2 =
      J ++ (gcore i c2 i ++ [nlChar, nlChar]) := by
  have hJpos : ∀ k, k < J.length →
      ¬ markerBegin i <+: ((J ++ (gcore i c1 i ++ [nlChar])).drop k) := by
    intro k hk
    rw [gcore_markers]
    exact no_markerBegin_in_junk hJ k hk
  have hown := @findSpecM_own_block i c1 [nlChar] hid hc1
  have hfs : findSpecM i (J ++ (gcore i c1 i ++ [nlChar])) =
      some (J, markerBegin i ++ c1 ++ markerEnd i, [nlChar]) := by
    rw [findSpecM_skip hJpos, hown]
    simp
  rw [Apply, replaceOrAddMarker, hfs]
  simp only [Option.isSome_some, if_true]
  have hnl : replAll i (createMarkerBlock i c2) [nlChar] = [nlChar] := by
    rw [replAll_eq, findSpecM_eq_none (by decide)]
  rw [replAll_append_of_skip hJpos, replAll_eq, hown]
  simp only []
  rw [hnl, expandRepl_no_dollar hd, createMarkerBlock_eq_gcore]
  simp [List.append_assoc]

/-- `findAll` on header-free junk, one good block, and a trailing blank
line finds exactly that block. -/
theorem findAll_junk_block_trail {J i c2 : List Char} (hJ : HdrFree J)
    (hid : SpaceFree i) (hc2 : HdrFree c2) :
    findAll (J ++ (gcore i c2 i ++ [nlChar, nlChar])) = [MMatch.mk i c2 i] := by
  rw [findAll_skip (matchAt_none_in_junk hJ)]
  rw [findAll_eq, findFirst_of_matchAt (matchAt_block hid hc2 hid)]
  simp only []
  rw [findAll_nl_cons, findAll_nl_cons]
  rfl

/-- C2 counterexample: applying twice with content whose middle line is an
END marker line for the id still extracts only the first line, so the
re-applied state is not the full round trip the claim promises. -/
theorem c2_counterexample :
    Extract (Apply (Apply [] "a".data "w".data) "a".data
        "x\n# === SKILL-HUB END: a ===\ny".data) "a".data = some ['x'] ∧
    trimSpace "x\n# === SKILL-HUB END: a ===\ny".data ≠ ['x'] := by
  exact ⟨by decide, by decide⟩

/-- C2 (amended): for a header-free file, a whitespace-free dollar-free id,
header-free first content, and header-free dollar-free second content,
applying the same skill twice leaves exactly one block for the id — the
file lists just that skill and extraction returns the trimmed second
content. -/
theorem apply_twice_single_block (f i c1 c2 : List Char) (hf : HdrFree f)
    (hid : SpaceFree i) (hc1 : HdrFree c1) (hc2 : HdrFree c2)
    (hdi : ('$' : Char) ∉ i) (hdc : ('$' : Char) ∉ c2) :
    ListSkills (Apply (Apply f i c1) i c2) = [i] ∧
    Extract (Apply (Apply f i c1) i c2) i = some (trimSpace c2) := by
  have hd := no_dollar_createMarkerBlock hdi hdc
  obtain ⟨J, hJfree, hJeq⟩ : ∃ J, HdrFree J ∧
      Apply f i c1 = J ++ (gcore i c1 i ++ [nlChar]) := by
    by_cases ht : trimSpace f = []
    · refine ⟨[], by decide, ?_⟩
      rw [Apply_append_path hf, if_pos ht, createMarkerBlock_eq_gcore,
        List.nil_append]
    · refine ⟨trimSpace f ++ [nlChar, nlChar], ?_, ?_⟩
      · have h2 := hdrFree_append_nl (hdrFree_append_nl (hdrFree_trimSpace hf))
        rw [List.append_assoc] at h2
        exact h2
      · rw [Apply_append_path hf, if_neg ht, createMarkerBlock_eq_gcore,
          ← List.append_assoc]
  rw [hJeq, apply_over_own_block hJfree hid hc1 hd]
  have hfa : findAll (J ++ (gcore i c2 i ++ [nlChar, nlChar])) =
      ([((i, c2, i) : List Char × List Char × List Char)]).map
        (fun t => MMatch.mk t.1 t.2.1 t.2.2) := by
    rw [findAll_junk_block_trail hJfree hid hc2]
    rfl
  have hfind : ([((i, c2, i) : List Char × List Char × List Char)]).find?
      (fun t => t.1 == i && t.2.2 == i) = some (i, c2, i) :=
    List.find?_cons_of_pos [] (by simp)
  constructor
  · rw [listSkills_of_findAll hfa]
    simp
  · rw [extract_of_findAll i hfa, hfind]

theorem apply_twice_single_block_witness :
    HdrFree "old".data ∧ SpaceFree "skill".data ∧ HdrFree "one".data ∧
    HdrFree "two".data ∧ ('$' : Char) ∉ "skill".data ∧ ('$' : Char) ∉ "two".data ∧
    (ListSkills (Apply (Apply "old".data "skill".data "one".data)
        "skill".data "two".data) = ["skill".data] ∧
      Extract (Apply (Apply "old".data "skill".data "one".data)
        "skill".data "two".data) "skill".data = some (trimSpace "two".data)) :=
  ⟨by decide, by decide, by decide, by decide, by decide, by decide,
   apply_twice_single_block "old".data "skill".data "one".data "two".data
     (by decide) (by decide) (by decide) (by decide) (by decide) (by decide)⟩

/-- C8: `List` only reports skills backed by an actual pattern match whose
opening and closing ids both equal the reported id; and in a file holding a
mismatched block (`BEGIN: a` closed by `END: q`) next to a well-formed
block for `b`, only `b` is listed, extraction of the mismatched id fails,
and extraction of `b` returns its trimmed content. -/
theorem list_only_wellformed :
    (∀ file sid, sid ∈ ListSkills file →
      ∃ m ∈ findAll file, m.id = sid ∧ m.id2 = sid) ∧
    (∀ i j b i2 b2 : List Char, SpaceFree i → SpaceFree j → HdrFree b →
      SpaceFree i2 → HdrFree b2 → i ≠ j → i2 ≠ i →
      ListSkills (blocksFile [(i, b, j), (i2, b2, i2)]) = [i2] ∧
      Extract (blocksFile [(i, b, j), (i2, b2, i2)]) i = none ∧
      Extract (blocksFile [(i, b, j), (i2, b2, i2)]) i2 = some (trimSpace b2)) := by
  constructor
  · intro file sid hs
    rw [ListSkills] at hs
    obtain ⟨m, hm, hmid⟩ := List.mem_map.mp hs
    obtain ⟨hmem, hpred⟩ := List.mem_filter.mp hm
    have h2 : m.id = m.id2 := beq_iff_eq.mp hpred
    exact ⟨m, hmem, hmid, by rw [← h2]; exact hmid⟩
  · intro i j b i2 b2 hi hj hb hi2 hb2 hij hi2i
    have hgb : GoodBlocks [(i, b, j), (i2, b2, i2)] := by
      intro t ht
      rcases List.mem_cons.mp ht with rfl | ht2
      · exact ⟨hi, hb, hj⟩
      · rw [List.mem_singleton] at ht2
        subst ht2
        exact ⟨hi2, hb2, hi2⟩
    have hfa := findAll_blocksFile _ hgb
    refine ⟨?_, ?_, ?_⟩
    · rw [listSkills_of_findAll hfa]
      simp [List.filter_cons, beq_iff_eq, hij]
    · rw [extract_of_findAll i hfa]
      have hfind : (([(i, b, j), (i2, b2, i2)] :
          List (List Char × List Char × List Char)).find?
            (fun t => t.1 == i && t.2.2 == i)) = none := by
        rw [List.find?_cons_of_neg _ (by simp [Ne.symm hij]),
          List.find?_cons_of_neg _ (by simp [hi2i]), List.find?_nil]
      rw [hfind]
    · rw [extract_of_findAll i2 hfa]
      have hfind : (([(i, b, j), (i2, b2, i2)] :
          List (List Char × List Char × List Char)).find?
            (fun t => t.1 == i2 && t.2.2 == i2)) = some (i2, b2, i2) := by
        rw [List.find?_cons_of_neg _ (by simp [Ne.symm hi2i]),
          List.find?_cons_of_pos _ (by simp)]
      rw [hfind]

theorem list_only_wellformed_witness :
    ("a".data ∈ ListSkills (blocksFile [("a".data, "x".data, "a".data)]) ∧
      ∃ m ∈ findAll (blocksFile [("a".data, "x".data, "a".data)]),
        m.id = "a".data ∧ m.id2 = "a".data) ∧
    (SpaceFree "a".data ∧ SpaceFree "q".data ∧ HdrFree "x".data ∧
      SpaceFree "b".data ∧ HdrFree "y".data ∧
      (ListSkills (blocksFile [("a".data, "x".data, "q".data),
          ("b".data, "y".data, "b".data)]) = ["b".data] ∧
        Extract (blocksFile [("a".data, "x".data, "q".data),
          ("b".data, "y".data, "b".data)]) "a".data = none ∧
        Extract (blocksFile [("a".data, "x".data, "q".data),
          ("b".data, "y".data, "b".data)]) "b".data = some (trimSpace "y".data))) :=
  ⟨⟨by decide, list_only_wellformed.1 _ "a".data (by decide)⟩,
   ⟨by decide, by decide, by decide, by decide, by decide,
    list_only_wellformed.2 "a".data "q".data "x".data "b".data "y".data
      (by decide) (by decide) (by decide) (by decide) (by decide)
      (by decide) (by decide)⟩⟩

/-- Prepending the same element to two lists with equal search results
keeps the search results equal. -/
theorem find?_cons_congr {α : Type} (p : α → Bool) (a : α) {l1 l2 : List α}
    (h : l1.find? p = l2.find? p) :
    (a :: l1).find? p = (a :: l2).find? p := by
  cases hpa : p a with
  | true => rw [List.find?_cons_of_pos _ hpa, List.find?_cons_of_pos _ hpa]
  | false =>
    rw [List.find?_cons_of_neg _ (by rw [hpa]; exact Bool.false_ne_true),
      List.find?_cons_of_neg _ (by rw [hpa]; exact Bool.false_ne_true), h]

/-- Searching the block list that survives removal of one id is the same as
searching the original list, for any other id. -/
theorem find?_wfPairs_filter (sid i : List Char) (hne : sid ≠ i) :
    ∀ l : List (List Char × List Char),
      (wfPairs (l.filter (fun e => !(e.1 == i)))).find?
          (fun t => t.1 == sid && t.2.2 == sid) =
        (wfPairs l).find? (fun t => t.1 == sid && t.2.2 == sid) := by
  intro l
  induction l with
  | nil => rfl
  | cons e rest ih =>
    by_cases hei : e.1 = i
    · rw [List.filter_cons, if_neg (by simp [hei]), ih,
        show wfPairs (e :: rest) = (e.1, e.2, e.1) :: wfPairs rest from rfl,
        List.find?_cons_of_neg _ (by simp [hei, Ne.symm hne])]
    · rw [List.filter_cons, if_pos (by simp [hei]),
        show wfPairs (e :: List.filter (fun e => !(e.1 == i)) rest) =
          (e.1, e.2, e.1) :: wfPairs (List.filter (fun e => !(e.1 == i)) rest)
          from rfl,
        show wfPairs (e :: rest) = (e.1, e.2, e.1) :: wfPairs rest from rfl]
      exact find?_cons_congr _ _ ih

set_option maxRecDepth 40000 in
/-- C4 counterexample: with a mismatched `BEGIN: a`/`END: q` block, a
well-formed `b` block, and a mismatched `BEGIN: q`/`END: a` block in the
file, the Remove pattern for `a` spans lazily from the first `BEGIN: a` to
the final `END: a`, so removing `a` deletes the entire file — including the
intact `b` block that `Extract` still finds beforehand. -/
theorem c4_counterexample :
    Extract ("# === SKILL-HUB BEGIN: a ===\nx\n# === SKILL-HUB END: q ===\n# === SKILL-HUB BEGIN: b ===\ny\n# === SKILL-HUB END: b ===\n# === SKILL-HUB BEGIN: q ===\nz\n# === SKILL-HUB END: a ===".data)
        "b".data = some ['y'] ∧
    RemoveContent ("# === SKILL-HUB BEGIN: a ===\nx\n# === SKILL-HUB END: q ===\n# === SKILL-HUB BEGIN: b ===\ny\n# === SKILL-HUB END: b ===\n# === SKILL-HUB BEGIN: q ===\nz\n# === SKILL-HUB END: a ===".data)
        "a".data = none := by
  exact ⟨by decide, by decide⟩

/-- C4 (amended): on a file that is a newline-joined chain of well-formed
blocks (whitespace-free ids, header-free contents), `Remove` deletes
exactly the blocks carrying the requested id — the file is deleted when no
block survives, and otherwise the surviving content lists exactly the other
blocks' ids and extracts any other id exactly as before.  (On files with
mismatched blocks the lazy pattern can span several blocks, so the claim's
"removes only the matching block" fails there.) -/
theorem remove_on_wellformed_chain (l : List (List Char × List Char))
    (i : List Char) (hid : SpaceFree i) (hl : GoodPairs l) :
    (RemoveContent (blocksFile (wfPairs l)) i =
      if l.filter (fun e => !(e.1 == i)) = [] then none
      else some (coreFile (wfPairs (l.filter (fun e => !(e.1 == i)))))) ∧
    (∀ r, RemoveContent (blocksFile (wfPairs l)) i = some r →
      ListSkills r = (l.filter (fun e => !(e.1 == i))).map (fun e => e.1) ∧
      ∀ sid, sid ≠ i →
        Extract r sid = Extract (blocksFile (wfPairs l)) sid) := by
  have hgrest : GoodPairs (l.filter (fun e => !(e.1 == i))) :=
    fun e he => hl e (List.mem_of_mem_filter he)
  have hrc : RemoveContent (blocksFile (wfPairs l)) i =
      if trimSpace (removeAll i (blocksFile (wfPairs l))) = [] then none
      else some (trimSpace (removeAll i (blocksFile (wfPairs l)))) := rfl
  have hra := removeAll_wfChain hid l hl
  have hmain : RemoveContent (blocksFile (wfPairs l)) i =
      if l.filter (fun e => !(e.1 == i)) = [] then none
      else some (coreFile (wfPairs (l.filter (fun e => !(e.1 == i))))) := by
    rw [hrc, hra]
    by_cases hc : l.filter (fun e => !(e.1 == i)) = []
    · rw [hc, if_pos rfl, if_pos (by decide)]
    · have hne : wfPairs (l.filter (fun e => !(e.1 == i))) ≠ [] :=
        fun h0 => hc (List.map_eq_nil_iff.mp h0)
      obtain ⟨z, hz⟩ := coreFile_head_shape _ hne
      rw [blocksFile_eq_coreFile _ hne, trimSpace_append_nl,
        trimSpace_coreFile hne, if_neg hc,
        if_neg (by rw [hz]; exact List.cons_ne_nil _ _)]
  refine ⟨hmain, ?_⟩
  intro r hr
  rw [hmain] at hr
  by_cases hc : l.filter (fun e => !(e.1 == i)) = []
  · rw [if_pos hc] at hr
    cases hr
  · rw [if_neg hc] at hr
    have hre : r = coreFile (wfPairs (l.filter (fun e => !(e.1 == i)))) :=
      (Option.some.inj hr).symm
    subst hre
    have hne : wfPairs (l.filter (fun e => !(e.1 == i))) ≠ [] :=
      fun h0 => hc (List.map_eq_nil_iff.mp h0)
    have hfa := findAll_coreFile _ (goodBlocks_wfPairs hgrest)
    constructor
    · rw [listSkills_of_findAll hfa, List.filter_eq_self.mpr ?hall]
      case hall =>
        intro t ht
        obtain ⟨e, he, rfl⟩ := List.mem_map.mp ht
        simp
      rw [wfPairs, List.map_map]
      rfl
    · intro sid hsid
      rw [extract_of_findAll sid hfa,
        extract_of_findAll sid (findAll_blocksFile _ (goodBlocks_wfPairs hl)),
        find?_wfPairs_filter sid i hsid l]

theorem remove_on_wellformed_chain_witness :
    SpaceFree "a".data ∧
    GoodPairs [("a".data, "x".data), ("b".data, "y".data)] ∧
    ((RemoveContent (blocksFile (wfPairs
          [("a".data, "x".data), ("b".data, "y".data)])) "a".data =
        if ([("a".data, "x".data), ("b".data, "y".data)].filter
            (fun e => !(e.1 == "a".data))) = [] then none
        else some (coreFile (wfPairs
          ([("a".data, "x".data), ("b".data, "y".data)].filter
            (fun e => !(e.1 == "a".data)))))) ∧
      (∀ r, RemoveContent (blocksFile (wfPairs
            [("a".data, "x".data), ("b".data, "y".data)])) "a".data = some r →
        ListSkills r = ([("a".data, "x".data), ("b".data, "y".data)].filter
            (fun e => !(e.1 == "a".data))).map (fun e => e.1) ∧
        ∀ sid, sid ≠ "a".data →
          Extract r sid = Extract (blocksFile (wfPairs
            [("a".data, "x".data), ("b".data, "y".data)])) sid)) :=
  ⟨by decide, by decide,
   remove_on_wellformed_chain [("a".data, "x".data), ("b".data, "y".data)]
     "a".data (by decide) (by decide)⟩
